import Mathlib

/-!
Verification of the HR-policy ETL chunking engine.

Shallow embedding of `src/chunking/chunker.py` (functions `chunk_text`,
`_split_large_paragraph`, `_get_tail_overlap`) over strings modelled as
`List Char`, together with proofs of the specification's claims about it.

Python string operations are modelled faithfully:
* `s.split()` (no argument) splits on runs of whitespace and drops empties
  (`words` below);
* `s.split('\n\n')` splits on each non-overlapping occurrence of the
  two-character separator (`splitParagraphs`);
* `s.strip()` trims whitespace from both ends (`strip`);
* `sep.join(l)` is `joinSep`;
* `re.split(r'(?<=[.!?])\s+', s)` splits at each maximal whitespace run
  immediately preceded by `.`, `!` or `?` (`reSplitD`, which also records
  each consumed delimiter);
* the slice `words[-n:]` is the whole list when `n = 0` (Python negative
  indexing: `-0 = 0`), otherwise the last `n` elements (`pyTailSlice`).
-/

abbrev Str := List Char

/-- Sentence-terminal punctuation recognised by the sentence splitter. -/
def isTerm (c : Char) : Bool := c = '.' || c = '!' || c = '?'

/-- Python `s.split()`: whitespace-delimited tokens, empties dropped. -/
def words : Str → List Str
  | [] => []
  | [c] => if c.isWhitespace then [] else [[c]]
  | c :: d :: rest =>
    if c.isWhitespace then words (d :: rest)
    else if d.isWhitespace then [c] :: words rest
    else
      match words (d :: rest) with
      | [] => [[c]]
      | w :: ws => (c :: w) :: ws

/-- Remove trailing whitespace characters. -/
def dropTrailingWs : Str → Str
  | [] => []
  | c :: rest =>
    match dropTrailingWs rest with
    | [] => if c.isWhitespace then [] else [c]
    | r => c :: r

/-- Python `s.strip()`. -/
def strip (s : Str) : Str := dropTrailingWs (s.dropWhile Char.isWhitespace)

/-- Python `sep.join(l)`. -/
def joinSep (sep : Str) : List Str → Str
  | [] => []
  | [x] => x
  | x :: xs => x ++ sep ++ joinSep sep xs

/-- Prepend a character to the first piece of a split result. -/
def consHead (c : Char) : List Str → List Str
  | [] => [[c]]
  | p :: ps => (c :: p) :: ps

/-- Python `text.split('\n\n')`: split at each non-overlapping occurrence
of the double line-break, scanning left to right. -/
def splitParagraphs : Str → List Str
  | [] => [[]]
  | '\n' :: '\n' :: rest => [] :: splitParagraphs rest
  | c :: rest => consHead c (splitParagraphs rest)

/-- The paragraph list the chunker iterates over: pieces of the double
line-break split whose `strip` is non-empty (source line 24). -/
def parasOf (text : Str) : List Str :=
  (splitParagraphs text).filter (fun p => strip p ≠ [])

/-- Model of `re.split(r'(?<=[.!?])\s+', text)`, instrumented: returns the list of
(piece, following whitespace delimiter) pairs.  `mode` is true while the
scanner is inside a delimiter run; `pacc` and `dacc` hold the reversed
current piece and reversed current delimiter. -/
def reSplitD (pacc dacc : Str) (mode : Bool) : Str → List (Str × Str)
  | [] =>
    if mode then [(pacc.reverse, dacc.reverse), ([], [])]
    else [(pacc.reverse, [])]
  | c :: rest =>
    if mode then
      if c.isWhitespace then reSplitD pacc (c :: dacc) true rest
      else (pacc.reverse, dacc.reverse) :: reSplitD [c] [] false rest
    else
      match pacc with
      | p :: _ =>
        if isTerm p ∧ c.isWhitespace then reSplitD pacc [c] true rest
        else reSplitD (c :: pacc) [] false rest
      | [] => reSplitD [c] [] false rest

/-- The raw pieces of the regex split (source line 110). -/
def reSplit (text : Str) : List Str := (reSplitD [] [] false text).map Prod.fst

/-- Sentence list used by `_split_large_paragraph` (source lines 110-111):
raw regex pieces, stripped, empties discarded. -/
def split_sentences (text : Str) : List Str :=
  ((reSplit text).map strip).filter (· ≠ [])

/-- Python slice `l[-n:]` for a non-negative `n`: the whole list when
`n = 0` (since `-0 = 0`), otherwise the last `n` elements. -/
def pyTailSlice (l : List Str) (n : Nat) : List Str :=
  if n = 0 then l else l.drop (l.length - n)

/-- Model of `_get_tail_overlap` (source lines 139-150). -/
def get_tail_overlap (text : Str) (overlap_words : Nat) : Str :=
  if text = [] then []
  else
    let ws := words text
    if ws.length ≤ overlap_words then text
    else joinSep [' '] (pyTailSlice ws overlap_words)

/-- One iteration of the sentence loop in `_split_large_paragraph`
(source lines 117-132).  State: finalized sub-chunks, current sentence
buffer, running word count. -/
def splitStep (target overlap : Nat) (st : List Str × List Str × Nat)
    (sent : Str) : List Str × List Str × Nat :=
  let subs := st.1
  let cur := st.2.1
  let cnt := st.2.2
  let s := (words sent).length
  let next :=
    if cnt + s > target then
      if cur ≠ [] then
        let cs := joinSep [' '] cur
        let ov := get_tail_overlap cs overlap
        if ov ≠ [] then (subs ++ [cs], ([ov] : List Str), (words ov).length)
        else (subs ++ [cs], ([] : List Str), 0)
      else (subs, cur, cnt)
    else (subs, cur, cnt)
  (next.1, next.2.1 ++ [sent], next.2.2 + s)

/-- Model of `_split_large_paragraph` (source lines 106-137). -/
def split_large_paragraph (text : Str) (target overlap : Nat) : List Str :=
  let sentences := split_sentences text
  let st := sentences.foldl (splitStep target overlap) ([], [], 0)
  if st.2.1 ≠ [] then st.1 ++ [joinSep [' '] st.2.1] else st.1

/-- The sub-chunk emission loop of `chunk_text` (source lines 73-88):
every sub-chunk is appended to the output; the last one additionally
seeds the next buffer with its tail overlap. -/
def emitSubs (overlap : Nat) (chunks : List Str) (cnt : Nat) :
    List Str → List Str × List Str × Nat
  | [] => (chunks, [], cnt)
  | [sub] =>
    let ov := get_tail_overlap sub overlap
    if ov ≠ [] then (chunks ++ [sub], ([ov] : List Str), (words ov).length)
    else (chunks ++ [sub], ([] : List Str), 0)
  | sub :: rest => emitSubs overlap (chunks ++ [sub]) cnt rest

/-- One iteration of the paragraph loop in `chunk_text`
(source lines 30-98).  State: finalized chunks, current paragraph buffer,
running word count. -/
def chunkStep (target overlap : Nat) (st : List Str × List Str × Nat)
    (para : Str) : List Str × List Str × Nat :=
  let chunks := st.1
  let cur := st.2.1
  let cnt := st.2.2
  let w := (words para).length
  if cnt + w > target then
    -- Scenario A: finalize a non-empty buffer and reseed with its overlap.
    let stA :=
      if cur ≠ [] then
        let cs := joinSep ['\n', '\n'] cur
        let ov := get_tail_overlap cs overlap
        if ov ≠ [] then (chunks ++ [cs], ([ov] : List Str), (words ov).length)
        else (chunks ++ [cs], ([] : List Str), 0)
      else (chunks, cur, cnt)
    if w > target then
      -- Scenario B: the paragraph alone exceeds the target.
      let subs := split_large_paragraph para target overlap
      let merged :=
        match stA.2.1, subs with
        | seed :: _, s0 :: srest => (seed ++ ' ' :: s0) :: srest
        | _ :: _, [] => ([] : List Str)
        | [], _ => subs
      emitSubs overlap stA.1 stA.2.2 merged
    else (stA.1, stA.2.1 ++ [para], stA.2.2 + w)
  else (chunks, cur ++ [para], cnt + w)

/-- Model of `chunk_text` (source lines 4-104). -/
def chunk_text (text : Str) (target overlap : Nat) : List Str :=
  if text = [] then []
  else
    let st := (parasOf text).foldl (chunkStep target overlap) ([], [], 0)
    if st.2.1 ≠ [] then st.1 ++ [joinSep ['\n', '\n'] st.2.1] else st.1

/-- Words of a list of strings, flattened in order. -/
def wordsOf (l : List Str) : List Str := (l.map words).flatten

/-! ## Lemmas about `words` -/

theorem words_ws_cons {c : Char} (hc : c.isWhitespace = true) (s : Str) :
    words (c :: s) = words s := by
  cases s with
  | nil => simp [words, hc]
  | cons d rest => simp [words, hc]

theorem words_head :
    ∀ (s : Str) (c : Char), c.isWhitespace = false →
      ∃ w t, words (c :: s) = (c :: w) :: t := by
  intro s
  induction s with
  | nil =>
    intro c hc
    exact ⟨[], [], by simp [words, hc]⟩
  | cons d rest ih =>
    intro c hc
    by_cases hd : d.isWhitespace
    · exact ⟨[], words rest, by simp [words, hc, hd]⟩
    · obtain ⟨w, t, hw⟩ := ih d (by simp [hd])
      refine ⟨d :: w, t, ?_⟩
      simp only [words, hc, hd, Bool.false_eq_true, if_false, hw]

theorem words_cons_ne_nil {c : Char} (hc : c.isWhitespace = false) (s : Str) :
    words (c :: s) ≠ [] := by
  obtain ⟨w, t, hw⟩ := words_head s c hc
  simp [hw]

theorem words_append_ws {c : Char} (hc : c.isWhitespace = true) (x y : Str) :
    words (x ++ c :: y) = words x ++ words y := by
  induction x using words.induct with
  | case1 => simpa using words_ws_cons hc y
  | case2 a ha =>
    simp only [List.cons_append, List.nil_append]
    rw [words_ws_cons ha, words_ws_cons hc]
    simp [words, ha]
  | case3 a ha =>
    simp only [List.cons_append, List.nil_append]
    have ha' : a.isWhitespace = false := by simpa using ha
    cases y with
    | nil => simp [words, ha', hc]
    | cons e y' => simp [words, ha', hc]
  | case4 a d rest ha ih =>
    simp only [List.cons_append] at *
    rw [words_ws_cons ha, words_ws_cons ha, ih]
  | case5 a d rest ha hd ih =>
    have ha' : a.isWhitespace = false := by simpa using ha
    simp only [List.cons_append] at *
    simp only [words, ha', hd, Bool.false_eq_true, if_false, if_true, ih]
    simp
  | case6 a d rest ha hd hnil ih =>
    have hd' : d.isWhitespace = false := by simpa using hd
    exact absurd hnil (words_cons_ne_nil hd' rest)
  | case7 a d rest ha hd w ws hw ih =>
    have ha' : a.isWhitespace = false := by simpa using ha
    have hd' : d.isWhitespace = false := by simpa using hd
    simp only [List.cons_append] at *
    have h1 : words (d :: (rest ++ c :: y)) = w :: (ws ++ words y) := by
      rw [ih, hw]; simp
    simp only [words, ha', hd', Bool.false_eq_true, if_false, h1, hw]
    simp

theorem words_eq_nil_iff (s : Str) :
    words s = [] ↔ ∀ c ∈ s, c.isWhitespace = true := by
  induction s using words.induct with
  | case1 => simp [words]
  | case2 c hc => simp [words, hc]
  | case3 c hc =>
    have hc' : c.isWhitespace = false := by simpa using hc
    simp [words, hc']
  | case4 c d rest hc ih => rw [words_ws_cons hc]; simp [ih, hc]
  | case5 c d rest hc hd ih =>
    have hc' : c.isWhitespace = false := by simpa using hc
    simp [words, hc', hd, hc]
  | case6 c d rest hc hd hnil ih =>
    have hd' : d.isWhitespace = false := by simpa using hd
    exact absurd hnil (words_cons_ne_nil hd' rest)
  | case7 c d rest hc hd w ws hw ih =>
    have hc' : c.isWhitespace = false := by simpa using hc
    simp only [words, hc', hd, Bool.false_eq_true, if_false, hw]
    simp [hc]

theorem words_all_ws {s : Str} (h : ∀ c ∈ s, c.isWhitespace = true) :
    words s = [] := (words_eq_nil_iff s).mpr h

theorem words_mem :
    ∀ (s : Str), ∀ w ∈ words s, w ≠ [] ∧ ∀ ch ∈ w, ch.isWhitespace = false := by
  intro s
  induction s using words.induct with
  | case1 => simp [words]
  | case2 c hc => simp [words, hc]
  | case3 c hc =>
    have hc' : c.isWhitespace = false := by simpa using hc
    simp [words, hc']
  | case4 c d rest hc ih => rw [words_ws_cons hc]; exact ih
  | case5 c d rest hc hd ih =>
    have hc' : c.isWhitespace = false := by simpa using hc
    intro w hw
    simp only [words, hc', hd, Bool.false_eq_true, if_false, if_true,
      List.mem_cons] at hw
    rcases hw with h | h
    · subst h; simp [hc']
    · exact ih w h
  | case6 c d rest hc hd hnil ih =>
    have hd' : d.isWhitespace = false := by simpa using hd
    exact absurd hnil (words_cons_ne_nil hd' rest)
  | case7 c d rest hc hd w0 ws0 hw0 ih =>
    have hc' : c.isWhitespace = false := by simpa using hc
    have hd' : d.isWhitespace = false := by simpa using hd
    intro w hw
    simp only [words, hc', hd', Bool.false_eq_true, if_false, hw0,
      List.mem_cons] at hw
    rcases hw with h | h
    · subst h
      have h0 := ih w0 (by rw [hw0]; exact List.mem_cons_self _ _)
      refine ⟨by simp, ?_⟩
      intro ch hch
      rcases List.mem_cons.1 hch with h | h
      · subst h; exact hc'
      · exact h0.2 ch h
    · exact ih w (by rw [hw0]; exact List.mem_cons_of_mem _ h)

theorem words_single :
    ∀ (w : Str), w ≠ [] → (∀ c ∈ w, c.isWhitespace = false) →
      words w = [w] := by
  intro w
  induction w using words.induct with
  | case1 => simp
  | case2 c hc => intro _ h; have := h c (by simp); simp [hc] at this
  | case3 c hc =>
    have hc' : c.isWhitespace = false := by simpa using hc
    intro _ _; simp [words, hc']
  | case4 c d rest hc ih =>
    intro _ h; have := h c (by simp); simp [hc] at this
  | case5 c d rest hc hd ih =>
    intro _ h; have := h d (by simp); simp [hd] at this
  | case6 c d rest hc hd hnil ih =>
    have hd' : d.isWhitespace = false := by simpa using hd
    exact absurd hnil (words_cons_ne_nil hd' rest)
  | case7 c d rest hc hd w0 ws0 hw0 ih =>
    have hc' : c.isWhitespace = false := by simpa using hc
    have hd' : d.isWhitespace = false := by simpa using hd
    intro _ h
    have hrec : words (d :: rest) = [d :: rest] := by
      refine ih (by simp) ?_
      intro ch hch
      exact h ch (List.mem_cons_of_mem _ hch)
    rw [hw0] at hrec
    obtain ⟨hw, hws⟩ := List.cons.injEq _ _ _ _ ▸ hrec
    simp only [words, hc', hd', Bool.false_eq_true, if_false, hw0, hw, hws]

theorem words_joinSep_space (l : List Str) :
    words (joinSep [' '] l) = wordsOf l := by
  induction l with
  | nil => simp [joinSep, words, wordsOf]
  | cons x xs ih =>
    cases xs with
    | nil => simp [joinSep, wordsOf]
    | cons y t =>
      have : joinSep [' '] (x :: y :: t) = x ++ ' ' :: joinSep [' '] (y :: t) := by
        simp [joinSep]
      rw [this, words_append_ws (by decide), ih]
      simp [wordsOf]

theorem words_joinSep_nn (l : List Str) :
    words (joinSep ['\n', '\n'] l) = wordsOf l := by
  induction l with
  | nil => simp [joinSep, words, wordsOf]
  | cons x xs ih =>
    cases xs with
    | nil => simp [joinSep, wordsOf]
    | cons y t =>
      have : joinSep ['\n', '\n'] (x :: y :: t)
          = x ++ '\n' :: '\n' :: joinSep ['\n', '\n'] (y :: t) := by
        simp [joinSep]
      rw [this, words_append_ws (by decide), words_ws_cons (by decide), ih]
      simp [wordsOf]

/-! ## Lemmas about `strip` and paragraph splitting -/

theorem words_append_allws {t : Str} (ht : ∀ c ∈ t, c.isWhitespace = true)
    (x : Str) : words (x ++ t) = words x := by
  cases t with
  | nil => simp
  | cons c t' =>
    rw [words_append_ws (ht c (by simp)) x t',
      words_all_ws (fun c hc => ht c (List.mem_cons_of_mem _ hc))]
    simp

theorem words_dropWhile (s : Str) :
    words (s.dropWhile Char.isWhitespace) = words s := by
  induction s with
  | nil => simp
  | cons c rest ih =>
    by_cases hc : c.isWhitespace
    · rw [List.dropWhile_cons_of_pos hc, ih, words_ws_cons hc]
    · rw [List.dropWhile_cons_of_neg hc]

theorem dtw_spec (s : Str) :
    ∃ t, s = dropTrailingWs s ++ t ∧ ∀ c ∈ t, c.isWhitespace = true := by
  induction s with
  | nil => exact ⟨[], by simp [dropTrailingWs]⟩
  | cons c rest ih =>
    obtain ⟨t, ht, hws⟩ := ih
    cases hr : dropTrailingWs rest with
    | nil =>
      by_cases hc : c.isWhitespace
      · refine ⟨c :: rest, ?_, ?_⟩
        · simp [dropTrailingWs, hr, hc]
        · intro d hd
          rcases List.mem_cons.1 hd with h | h
          · subst h; exact hc
          · rw [ht, hr] at h; simpa using hws d h
      · refine ⟨t, ?_, hws⟩
        simp only [dropTrailingWs, hr, hc, if_false]
        rw [ht, hr]; simp
    | cons r0 rs =>
      refine ⟨t, ?_, hws⟩
      simp only [dropTrailingWs, hr]
      rw [ht, hr]; simp

theorem words_dropTrailingWs (s : Str) :
    words (dropTrailingWs s) = words s := by
  obtain ⟨t, ht, hws⟩ := dtw_spec s
  conv_rhs => rw [ht]
  rw [words_append_allws hws]

theorem words_strip (s : Str) : words (strip s) = words s := by
  rw [strip, words_dropTrailingWs, words_dropWhile]

theorem strip_eq_nil_iff (s : Str) : strip s = [] ↔ words s = [] := by
  constructor
  · intro h
    rw [← words_strip, h]
    rfl
  · intro h
    have hall : ∀ c ∈ s, c.isWhitespace = true := (words_eq_nil_iff s).1 h
    have hdw : s.dropWhile Char.isWhitespace = [] :=
      List.dropWhile_eq_nil_iff.2 hall
    rw [strip, hdw]
    rfl

theorem dropWhile_head_false {p : Char → Bool} :
    ∀ (l : Str) (c : Char) (t : Str), l.dropWhile p = c :: t → p c = false := by
  intro l
  induction l with
  | nil => intro c t h; simp at h
  | cons a l' ih =>
    intro c t h
    by_cases ha : p a
    · rw [List.dropWhile_cons_of_pos ha] at h
      exact ih c t h
    · rw [List.dropWhile_cons_of_neg ha] at h
      obtain ⟨h1, _⟩ := List.cons.injEq _ _ _ _ ▸ h
      subst h1
      simpa using ha

theorem dtw_getLast :
    ∀ (s : Str) (c : Char), (dropTrailingWs s).getLast? = some c →
      c.isWhitespace = false := by
  intro s
  induction s with
  | nil => intro c h; simp [dropTrailingWs] at h
  | cons a rest ih =>
    intro c h
    cases hr : dropTrailingWs rest with
    | nil =>
      simp only [dropTrailingWs, hr] at h
      by_cases ha : a.isWhitespace
      · simp [ha] at h
      · simp [ha] at h
        subst h
        simpa using ha
    | cons r0 rs =>
      simp only [dropTrailingWs, hr] at h
      rw [List.getLast?_cons_cons] at h
      exact ih c (hr ▸ h)

theorem dtw_of_getLast :
    ∀ (s : Str), (∀ c, s.getLast? = some c → c.isWhitespace = false) →
      dropTrailingWs s = s := by
  intro s
  induction s with
  | nil => intro _; rfl
  | cons a rest ih =>
    intro h
    cases rest with
    | nil =>
      have := h a (by simp)
      simp [dropTrailingWs, this]
    | cons b rs =>
      have hrec : dropTrailingWs (b :: rs) = b :: rs := by
        refine ih ?_
        intro c hc
        exact h c (by rw [List.getLast?_cons_cons]; exact hc)
      have hstep : dropTrailingWs (a :: b :: rs) =
          (match dropTrailingWs (b :: rs) with
            | [] => if a.isWhitespace = true then [] else [a]
            | r => a :: r) := rfl
      rw [hstep, hrec]

theorem strip_idem (s : Str) : strip (strip s) = strip s := by
  cases hv : strip s with
  | nil => rfl
  | cons h0 t0 =>
    have hhead : h0.isWhitespace = false := by
      obtain ⟨t, ht, _⟩ := dtw_spec (s.dropWhile Char.isWhitespace)
      rw [strip] at hv
      cases hu : s.dropWhile Char.isWhitespace with
      | nil => rw [hu] at hv; simp [dropTrailingWs] at hv
      | cons u0 us =>
        have hu0 : u0.isWhitespace = false := dropWhile_head_false s u0 us hu
        rw [hu] at ht hv
        rw [hv] at ht
        have : u0 = h0 := by
          have := ht
          simp only [List.cons_append] at this
          exact (List.cons.injEq _ _ _ _ ▸ this).1
        rw [← this]; exact hu0
    have hlast : ∀ c, (h0 :: t0).getLast? = some c → c.isWhitespace = false := by
      intro c hc
      rw [← hv, strip] at hc
      exact dtw_getLast _ c hc
    rw [strip, List.dropWhile_cons_of_neg (by simp [hhead]),
      dtw_of_getLast _ hlast]

theorem consHead_ne_nil (c : Char) (l : List Str) : consHead c l ≠ [] := by
  cases l <;> simp [consHead]

theorem splitParagraphs_ne_nil (s : Str) : splitParagraphs s ≠ [] := by
  induction s using splitParagraphs.induct with
  | case1 => simp [splitParagraphs]
  | case2 rest ih => simp [splitParagraphs]
  | case3 c rest h ih =>
    simp only [splitParagraphs]
    exact consHead_ne_nil _ _

theorem joinSep_cons (sep x : Str) (l : List Str) (h : l ≠ []) :
    joinSep sep (x :: l) = x ++ sep ++ joinSep sep l := by
  cases l with
  | nil => exact absurd rfl h
  | cons y t => simp [joinSep]

theorem joinSep_splitParagraphs (s : Str) :
    joinSep ['\n', '\n'] (splitParagraphs s) = s := by
  induction s using splitParagraphs.induct with
  | case1 => rfl
  | case2 rest ih =>
    rw [splitParagraphs,
      joinSep_cons _ _ _ (splitParagraphs_ne_nil rest), ih]
    rfl
  | case3 c rest h ih =>
    have hstep : splitParagraphs (c :: rest) = consHead c (splitParagraphs rest) := by
      simp only [splitParagraphs]
    cases hr : splitParagraphs rest with
    | nil => exact absurd hr (splitParagraphs_ne_nil rest)
    | cons p ps =>
      rw [hstep, hr]
      simp only [consHead]
      rw [hr] at ih
      cases ps with
      | nil =>
        simp only [joinSep] at ih ⊢
        rw [ih]
      | cons q qs =>
        rw [joinSep_cons _ _ _ (by simp)] at ih ⊢
        rw [← ih]
        simp

theorem wordsOf_nil : wordsOf [] = [] := rfl

theorem wordsOf_cons (x : Str) (l : List Str) :
    wordsOf (x :: l) = words x ++ wordsOf l := by simp [wordsOf]

theorem wordsOf_append (l m : List Str) :
    wordsOf (l ++ m) = wordsOf l ++ wordsOf m := by simp [wordsOf]

theorem wordsOf_filter_strip (l : List Str) :
    wordsOf (l.filter (fun p => strip p ≠ [])) = wordsOf l := by
  induction l with
  | nil => rfl
  | cons x xs ih =>
    by_cases hx : strip x = []
    · rw [List.filter_cons_of_neg (by simp [hx]), ih, wordsOf_cons,
        (strip_eq_nil_iff x).1 hx]
      simp
    · rw [List.filter_cons_of_pos (by simp [hx]), wordsOf_cons, wordsOf_cons, ih]

theorem wordsOf_map_strip (l : List Str) :
    wordsOf (l.map strip) = wordsOf l := by
  induction l with
  | nil => rfl
  | cons x xs ih =>
    simp only [List.map_cons, wordsOf_cons, words_strip, ih]

theorem wordsOf_parasOf (text : Str) : wordsOf (parasOf text) = words text := by
  rw [parasOf, wordsOf_filter_strip]
  conv_rhs => rw [← joinSep_splitParagraphs text]
  rw [words_joinSep_nn]

/-! ## Lemmas about `get_tail_overlap` -/

theorem wordsOf_of_words_list {l : List Str}
    (h : ∀ w ∈ l, w ≠ [] ∧ ∀ c ∈ w, c.isWhitespace = false) :
    wordsOf l = l := by
  induction l with
  | nil => rfl
  | cons x xs ih =>
    rw [wordsOf_cons, (h x (by simp)).elim (fun h1 h2 => words_single x h1 h2),
      ih (fun w hw => h w (List.mem_cons_of_mem _ hw))]
    rfl

theorem joinSep_ne_nil {sep : Str} {l : List Str} (hl : l ≠ [])
    (h : ∀ w ∈ l, w ≠ []) : joinSep sep l ≠ [] := by
  cases l with
  | nil => exact absurd rfl hl
  | cons x xs =>
    cases xs with
    | nil => simpa [joinSep] using h x (by simp)
    | cons y t =>
      simp only [joinSep]
      have := h x (by simp)
      intro hc
      rw [List.append_assoc] at hc
      exact this (List.append_eq_nil.1 hc).1

theorem words_joinSep_words {l : List Str} {t : Str}
    (h : ∀ w ∈ l, w ∈ words t) : words (joinSep [' '] l) = l := by
  rw [words_joinSep_space]
  exact wordsOf_of_words_list (fun w hw => words_mem t w (h w hw))

theorem get_tail_overlap_of_le {t : Str} {n : Nat}
    (h : (words t).length ≤ n) : get_tail_overlap t n = t := by
  by_cases ht : t = []
  · subst ht; rfl
  · simp only [get_tail_overlap, ht, if_false, h, if_true]

theorem get_tail_overlap_of_gt_pos {t : Str} {n : Nat}
    (hn : 1 ≤ n) (h : n < (words t).length) :
    get_tail_overlap t n
      = joinSep [' '] ((words t).drop ((words t).length - n)) := by
  have ht : t ≠ [] := by
    intro hc; subst hc; simp [words] at h
  simp only [get_tail_overlap, ht, if_false, Nat.not_le.2 h,
    pyTailSlice, Nat.one_le_iff_ne_zero.1 hn, if_false]

theorem get_tail_overlap_of_zero {t : Str} (h : 0 < (words t).length) :
    get_tail_overlap t 0 = joinSep [' '] (words t) := by
  have ht : t ≠ [] := by
    intro hc; subst hc; simp [words] at h
  have hle : ¬ (words t).length ≤ 0 := by omega
  simp only [get_tail_overlap, ht, if_false, hle, pyTailSlice, if_true]

theorem words_get_tail_overlap (t : Str) (n : Nat) :
    ∃ m, m ≤ (words t).length ∧
      words (get_tail_overlap t n) = (words t).drop m := by
  by_cases ht : t = []
  · exact ⟨0, by simp [ht, get_tail_overlap, words]⟩
  by_cases hle : (words t).length ≤ n
  · exact ⟨0, by simp [get_tail_overlap_of_le hle]⟩
  push_neg at hle
  by_cases hn : n = 0
  · subst hn
    refine ⟨0, by omega, ?_⟩
    rw [get_tail_overlap_of_zero (by omega), List.drop_zero,
      words_joinSep_words (fun w hw => hw)]
  · refine ⟨(words t).length - n, by omega, ?_⟩
    rw [get_tail_overlap_of_gt_pos (by omega) hle,
      words_joinSep_words (fun w hw => List.mem_of_mem_drop hw)]

theorem get_tail_overlap_ne_nil {t : Str} (ht : t ≠ []) (n : Nat) :
    get_tail_overlap t n ≠ [] := by
  by_cases hle : (words t).length ≤ n
  · rw [get_tail_overlap_of_le hle]; exact ht
  push_neg at hle
  by_cases hn : n = 0
  · subst hn
    rw [get_tail_overlap_of_zero (by omega)]
    refine joinSep_ne_nil ?_ (fun w hw => (words_mem t w hw).1)
    intro hc; rw [hc] at hle; simp at hle
  · rw [get_tail_overlap_of_gt_pos (by omega) hle]
    refine joinSep_ne_nil ?_ (fun w hw => (words_mem t w (List.mem_of_mem_drop hw)).1)
    intro hc
    have := congrArg List.length hc
    rw [List.length_drop] at this
    simp at this
    omega

theorem words_get_tail_overlap_le {t : Str} {n : Nat} (hn : 1 ≤ n) :
    (words (get_tail_overlap t n)).length ≤ n := by
  by_cases ht : t = []
  · subst ht; simp [get_tail_overlap, words]
  by_cases hle : (words t).length ≤ n
  · rw [get_tail_overlap_of_le hle]; exact hle
  push_neg at hle
  rw [get_tail_overlap_of_gt_pos hn hle,
    words_joinSep_words (fun w hw => List.mem_of_mem_drop hw),
    List.length_drop]
  omega

/-- Claim C5 (amended).  `tail_overlap` returns `[]` on empty input; returns the
text unchanged when its word count is at most the budget `n`; and for a
*positive* budget `n` smaller than the word count, returns the last `n`
words space-joined, whose word count is exactly `n`.  The original claim's
"for every non-negative budget" fails at `n = 0`: Python's `words[-0:]`
slice is the whole word list, so the code returns all words space-joined
rather than the last zero words. -/
theorem claim_C5_amended (t : Str) (n : Nat) :
    (t = [] → get_tail_overlap t n = []) ∧
    ((words t).length ≤ n → get_tail_overlap t n = t) ∧
    (1 ≤ n → n < (words t).length →
      get_tail_overlap t n
          = joinSep [' '] ((words t).drop ((words t).length - n)) ∧
        (words (get_tail_overlap t n)).length = n) ∧
    (n = 0 → 0 < (words t).length →
      get_tail_overlap t n = joinSep [' '] (words t)) := by
  refine ⟨?_, ?_, ?_, ?_⟩
  · intro ht; subst ht; rfl
  · exact get_tail_overlap_of_le
  · intro hn hlt
    refine ⟨get_tail_overlap_of_gt_pos hn hlt, ?_⟩
    rw [get_tail_overlap_of_gt_pos hn hlt,
      words_joinSep_words (fun w hw => List.mem_of_mem_drop hw),
      List.length_drop]
    omega
  · intro hn hlt; subst hn; exact get_tail_overlap_of_zero hlt

/-- Witness for C5 (amended) at `t = "a b c"`, `n = 2`. -/
theorem claim_C5_witness :
    get_tail_overlap "a b c".data 2
        = joinSep [' ']
            ((words "a b c".data).drop ((words "a b c".data).length - 2)) ∧
      (words (get_tail_overlap "a b c".data 2)).length = 2 :=
  (claim_C5_amended "a b c".data 2).2.2.1 (by decide) (by decide)

/-- Claim C5 counterexample: at `text = "a b"`, `n = 0`, the input's word
count (2) exceeds the budget 0, yet the result is not the last 0 words
(it is the whole text) and its word count is not ≤ 0 — refuting the
claim's "otherwise returns exactly the last n words … word count always
≤ n" for the budget `n = 0`. -/
theorem claim_C5_counterexample :
    0 < (words "a b".data).length ∧
      get_tail_overlap "a b".data 0 = "a b".data ∧
      get_tail_overlap "a b".data 0
          ≠ joinSep [' ']
              ((words "a b".data).drop ((words "a b".data).length - 0)) ∧
      ¬ (words (get_tail_overlap "a b".data 0)).length ≤ 0 := by decide

/-- Claim C7 (confirmed).  `tail_overlap` is idempotent for every text and
every non-negative budget, including the `n = 0` Python-slice quirk case. -/
theorem claim_C7_idempotent (t : Str) (n : Nat) :
    get_tail_overlap (get_tail_overlap t n) n = get_tail_overlap t n := by
  by_cases ht : t = []
  · subst ht; rfl
  by_cases hle : (words t).length ≤ n
  · rw [get_tail_overlap_of_le hle, get_tail_overlap_of_le hle]
  push_neg at hle
  by_cases hn : n = 0
  · subst hn
    have h0 : 0 < (words t).length := by omega
    have hr : get_tail_overlap t 0 = joinSep [' '] (words t) :=
      get_tail_overlap_of_zero h0
    have hw : words (get_tail_overlap t 0) = words t := by
      rw [hr, words_joinSep_words (fun w hw => hw)]
    rw [get_tail_overlap_of_zero (by rw [hw]; exact h0), hw, hr]
  · have hn1 : 1 ≤ n := by omega
    have hlen : (words (get_tail_overlap t n)).length ≤ n :=
      words_get_tail_overlap_le hn1
    rw [get_tail_overlap_of_le hlen]

/-! ## Concrete-scenario claims and the fit-check claim -/

/-- Claim C9 (confirmed).  The per-paragraph fit check of the Chunk Assembler
is strict: a paragraph whose word count exactly fills the remaining budget
is appended to the current buffer with no chunk finalized, and the
finalizing branch can change the emitted chunk list only when the sum
strictly exceeds the target. -/
theorem claim_C9_exact_fit (target overlap : Nat) (chunks cur : List Str)
    (cnt : Nat) (para : Str) :
    (cnt + (words para).length = target →
      chunkStep target overlap (chunks, cur, cnt) para
        = (chunks, cur ++ [para], cnt + (words para).length)) ∧
    ((chunkStep target overlap (chunks, cur, cnt) para).1 ≠ chunks →
      target < cnt + (words para).length) := by
  constructor
  · intro h
    have hng : ¬ (cnt + (words para).length > target) := by omega
    simp [chunkStep, hng]
  · intro h
    by_contra hc
    push_neg at hc
    have hng : ¬ (cnt + (words para).length > target) := by omega
    simp [chunkStep, hng] at h

/-- Witness for C9 at `target = 3`, buffer word count 1, paragraph of 2
words: `1 + 2 = 3` exactly fits and the paragraph is buffered. -/
theorem claim_C9_witness :
    chunkStep 3 1 ([], ["a".data], 1) "b c".data
      = ([], ["a".data, "b c".data], 1 + (words "b c".data).length) :=
  (claim_C9_exact_fit 3 1 [] ["a".data] 1 "b c".data).1 (by decide)

/-- Claim C2 counterexample: on `"a b c\n\nd e f g h i"` with target 5 and
overlap 2 the code returns 3 chunks, not the 2 the claim states — after the
oversized second paragraph is emitted, the buffer is reseeded with the
overlap `"h i"` and the final flush emits it as a third chunk. -/
theorem claim_C2_counterexample :
    (chunk_text "a b c\n\nd e f g h i".data 5 2).length ≠ 2 := by decide

/-- Claim C2 (amended).  `chunk_text(..., 5, 2)` on the two paragraphs
`"a b c"`, `"d e f g h i"` returns exactly three chunks: `"a b c"`,
`"b c d e f g h i"` (overlap seed merged onto the single oversized
sub-chunk), and a trailing pure-overlap chunk `"h i"` flushed from the
reseeded buffer. -/
theorem claim_C2_amended :
    chunk_text "a b c\n\nd e f g h i".data 5 2
      = ["a b c".data, "b c d e f g h i".data, "h i".data] := by decide

/-- Claim C3 counterexample: on the single 11-word paragraph with target 10
and overlap 3 the code returns 2 chunks, not 1 — the last sub-chunk of the
oversized paragraph reseeds the buffer with `"nine ten eleven"`, which the
final flush emits as a second chunk. -/
theorem claim_C3_counterexample :
    (chunk_text
        "one two three four five six seven eight nine ten eleven".data
        10 3).length ≠ 1 := by decide

/-- Claim C3 (amended).  `chunk_text(..., 10, 3)` on the single 11-word
paragraph returns exactly two chunks: the whole 11-word paragraph, then a
trailing pure-overlap chunk `"nine ten eleven"`. -/
theorem claim_C3_amended :
    chunk_text "one two three four five six seven eight nine ten eleven".data
        10 3
      = ["one two three four five six seven eight nine ten eleven".data,
          "nine ten eleven".data] := by decide

/-- Claim C4 counterexample: for the oversized paragraph
`"a b c d. e f g h. i j k l."` (12 words > target 5) with overlap 2, the
splitter returns the sub-chunk `"c d. e f g h."` of 6 words > 5, although
every sentence of the paragraph has only 4 words ≤ 5 — so the claim's sole
permitted exception (a single sentence exceeding the target) does not
apply.  The overlap seed prepended at re-buffering makes sub-chunks exceed
the target. -/
theorem claim_C4_counterexample :
    "c d. e f g h.".data
        ∈ split_large_paragraph "a b c d. e f g h. i j k l.".data 5 2 ∧
      5 < (words "a b c d. e f g h. i j k l.".data).length ∧
      5 < (words "c d. e f g h.".data).length ∧
      ∀ s ∈ split_sentences "a b c d. e f g h. i j k l.".data,
        (words s).length ≤ 5 := by decide

/-! ## Lemmas about the sentence splitter `reSplitD` -/

theorem getLast?_cons_ne_nil {α : Type} {a : α} {l : List α} (h : l ≠ []) :
    (a :: l).getLast? = l.getLast? := by
  cases l with
  | nil => exact absurd rfl h
  | cons b t => exact List.getLast?_cons_cons

theorem words_prepend_allws {t : Str} (ht : ∀ c ∈ t, c.isWhitespace = true)
    (x : Str) : words (t ++ x) = words x := by
  induction t with
  | nil => simp
  | cons c t' ih =>
    rw [List.cons_append, words_ws_cons (ht c (by simp)),
      ih (fun c hc => ht c (List.mem_cons_of_mem _ hc))]

theorem reSplitD_ne_nil :
    ∀ (s pacc dacc : Str) (mode : Bool), reSplitD pacc dacc mode s ≠ [] := by
  intro s
  induction s with
  | nil =>
    intro pacc dacc mode
    cases mode <;> simp [reSplitD]
  | cons c rest ih =>
    intro pacc dacc mode
    cases mode with
    | true =>
      by_cases hc : c.isWhitespace
      · simpa [reSplitD, hc] using ih pacc (c :: dacc) true
      · simp [reSplitD, hc]
    | false =>
      cases pacc with
      | nil => simpa [reSplitD] using ih [c] [] false
      | cons p t =>
        by_cases hb : isTerm p = true ∧ c.isWhitespace = true
        · simpa [reSplitD, hb] using ih (p :: t) [c] true
        · simpa [reSplitD, hb] using ih (c :: p :: t) [] false

theorem reSplitD_glue :
    ∀ (s pacc dacc : Str) (mode : Bool), (mode = false → dacc = []) →
      ((reSplitD pacc dacc mode s).map (fun pr => pr.1 ++ pr.2)).flatten
        = pacc.reverse ++ dacc.reverse ++ s := by
  intro s
  induction s with
  | nil =>
    intro pacc dacc mode hd
    cases mode with
    | true => simp [reSplitD]
    | false => simp [reSplitD, hd rfl]
  | cons c rest ih =>
    intro pacc dacc mode hd
    cases mode with
    | true =>
      by_cases hc : c.isWhitespace
      · rw [show reSplitD pacc dacc true (c :: rest)
            = reSplitD pacc (c :: dacc) true rest by simp [reSplitD, hc]]
        rw [ih pacc (c :: dacc) true (by simp)]
        simp
      · rw [show reSplitD pacc dacc true (c :: rest)
            = (pacc.reverse, dacc.reverse) :: reSplitD [c] [] false rest by
              simp [reSplitD, hc]]
        simp only [List.map_cons, List.flatten_cons,
          ih [c] [] false (fun _ => rfl)]
        simp
    | false =>
      rw [hd rfl]
      cases pacc with
      | nil =>
        rw [show reSplitD [] [] false (c :: rest)
            = reSplitD [c] [] false rest by simp [reSplitD]]
        rw [ih [c] [] false (fun _ => rfl)]
        simp
      | cons p t =>
        by_cases hb : isTerm p = true ∧ c.isWhitespace = true
        · rw [show reSplitD (p :: t) [] false (c :: rest)
              = reSplitD (p :: t) [c] true rest by simp [reSplitD, hb]]
          rw [ih (p :: t) [c] true (by simp)]
          simp
        · rw [show reSplitD (p :: t) [] false (c :: rest)
              = reSplitD (c :: p :: t) [] false rest by simp [reSplitD, hb]]
          rw [ih (c :: p :: t) [] false (fun _ => rfl)]
          simp

theorem reSplitD_delims :
    ∀ (s pacc dacc : Str) (mode : Bool),
      (mode = true → dacc ≠ [] ∧ (∀ c ∈ dacc, c.isWhitespace = true) ∧
        ∃ p t, pacc = p :: t ∧ isTerm p = true) →
      (∀ pr ∈ (reSplitD pacc dacc mode s).dropLast,
          pr.2 ≠ [] ∧ (∀ c ∈ pr.2, c.isWhitespace = true) ∧
          ∃ c, pr.1.getLast? = some c ∧ isTerm c = true) ∧
      (∀ pr, (reSplitD pacc dacc mode s).getLast? = some pr → pr.2 = []) := by
  intro s
  induction s with
  | nil =>
    intro pacc dacc mode hmode
    cases mode with
    | true =>
      obtain ⟨hd, hws, p, t, hp, hterm⟩ := hmode rfl
      constructor
      · intro pr hpr
        simp only [reSplitD, if_true, List.dropLast, List.mem_singleton] at hpr
        subst hpr
        refine ⟨by simpa using hd, fun c hc => hws c (by simpa using hc), ?_⟩
        refine ⟨p, ?_, hterm⟩
        rw [List.getLast?_reverse, hp]
        rfl
      · intro pr hpr
        simp only [reSplitD, if_true] at hpr
        rw [show [(pacc.reverse, dacc.reverse), (([] : Str), ([] : Str))].getLast?
            = some (([] : Str), ([] : Str)) by rfl] at hpr
        rw [← Option.some.inj hpr]
    | false =>
      constructor
      · intro pr hpr
        simp [reSplitD, List.dropLast] at hpr
      · intro pr hpr
        simp only [reSplitD, Bool.false_eq_true, if_false] at hpr
        rw [show [(pacc.reverse, ([] : Str))].getLast?
            = some (pacc.reverse, ([] : Str)) by rfl] at hpr
        rw [← Option.some.inj hpr]
  | cons c rest ih =>
    intro pacc dacc mode hmode
    cases mode with
    | true =>
      obtain ⟨hd, hws, p, t, hp, hterm⟩ := hmode rfl
      by_cases hc : c.isWhitespace
      · rw [show reSplitD pacc dacc true (c :: rest)
            = reSplitD pacc (c :: dacc) true rest by simp [reSplitD, hc]]
        refine ih pacc (c :: dacc) true ?_
        intro _
        refine ⟨by simp, ?_, p, t, hp, hterm⟩
        intro d hdm
        rcases List.mem_cons.1 hdm with h | h
        · subst h; exact hc
        · exact hws d h
      · rw [show reSplitD pacc dacc true (c :: rest)
            = (pacc.reverse, dacc.reverse) :: reSplitD [c] [] false rest by
              simp [reSplitD, hc]]
        have hne := reSplitD_ne_nil rest [c] [] false
        obtain ⟨ihd, ihl⟩ := ih [c] [] false (by simp)
        constructor
        · intro pr hpr
          rw [List.dropLast_cons_of_ne_nil hne] at hpr
          rcases List.mem_cons.1 hpr with h | h
          · subst h
            refine ⟨by simpa using hd, fun e he => hws e (by simpa using he),
              p, ?_, hterm⟩
            rw [List.getLast?_reverse, hp]
            rfl
          · exact ihd pr h
        · intro pr hpr
          rw [getLast?_cons_ne_nil hne] at hpr
          exact ihl pr hpr
    | false =>
      cases pacc with
      | nil =>
        rw [show reSplitD [] dacc false (c :: rest)
            = reSplitD [c] [] false rest by simp [reSplitD]]
        exact ih [c] [] false (by simp)
      | cons p t =>
        by_cases hb : isTerm p = true ∧ c.isWhitespace = true
        · rw [show reSplitD (p :: t) dacc false (c :: rest)
              = reSplitD (p :: t) [c] true rest by simp [reSplitD, hb]]
          refine ih (p :: t) [c] true ?_
          intro _
          refine ⟨by simp, ?_, p, t, rfl, hb.1⟩
          intro d hdm
          rw [List.mem_singleton.1 hdm]
          exact hb.2
        · rw [show reSplitD (p :: t) dacc false (c :: rest)
              = reSplitD (c :: p :: t) [] false rest by simp [reSplitD, hb]]
          exact ih (c :: p :: t) [] false (by simp)

theorem reSplitD_bndFree :
    ∀ (s pacc dacc : Str) (mode : Bool),
      List.Chain' (fun a b => ¬(isTerm b = true ∧ a.isWhitespace = true)) pacc →
      ∀ pr ∈ reSplitD pacc dacc mode s,
        List.Chain' (fun a b => ¬(isTerm a = true ∧ b.isWhitespace = true))
          pr.1 := by
  intro s
  induction s with
  | nil =>
    intro pacc dacc mode hacc pr hpr
    cases mode with
    | true =>
      simp only [reSplitD, if_true, List.mem_cons, List.mem_singleton] at hpr
      rcases hpr with h | h | h
      · subst h
        exact List.chain'_reverse.2 hacc
      · subst h
        exact List.chain'_nil
      · simp at h
    | false =>
      simp only [reSplitD, Bool.false_eq_true, if_false, List.mem_singleton] at hpr
      subst hpr
      exact List.chain'_reverse.2 hacc
  | cons c rest ih =>
    intro pacc dacc mode hacc pr hpr
    cases mode with
    | true =>
      by_cases hc : c.isWhitespace
      · rw [show reSplitD pacc dacc true (c :: rest)
            = reSplitD pacc (c :: dacc) true rest by simp [reSplitD, hc]] at hpr
        exact ih pacc (c :: dacc) true hacc pr hpr
      · rw [show reSplitD pacc dacc true (c :: rest)
            = (pacc.reverse, dacc.reverse) :: reSplitD [c] [] false rest by
              simp [reSplitD, hc]] at hpr
        rcases List.mem_cons.1 hpr with h | h
        · subst h
          exact List.chain'_reverse.2 hacc
        · exact ih [c] [] false (List.chain'_singleton c) pr h
    | false =>
      cases pacc with
      | nil =>
        rw [show reSplitD [] dacc false (c :: rest)
            = reSplitD [c] [] false rest by simp [reSplitD]] at hpr
        exact ih [c] [] false (List.chain'_singleton c) pr hpr
      | cons p t =>
        by_cases hb : isTerm p = true ∧ c.isWhitespace = true
        · rw [show reSplitD (p :: t) dacc false (c :: rest)
              = reSplitD (p :: t) [c] true rest by simp [reSplitD, hb]] at hpr
          exact ih (p :: t) [c] true hacc pr hpr
        · rw [show reSplitD (p :: t) dacc false (c :: rest)
              = reSplitD (c :: p :: t) [] false rest by simp [reSplitD, hb]] at hpr
          refine ih (c :: p :: t) [] false ?_ pr hpr
          exact List.Chain'.cons hb hacc

theorem reverse_head_nonws {pacc : Str} {c : Char}
    (hcl : pacc.getLast? = some c) (hcw : c.isWhitespace = false) :
    pacc.reverse = [] ∨ ∃ c' t, pacc.reverse = c' :: t ∧ c'.isWhitespace = false := by
  cases hrev : pacc.reverse with
  | nil => exact Or.inl rfl
  | cons r0 rs =>
    right
    refine ⟨r0, rs, rfl, ?_⟩
    have h : pacc.reverse.head? = some r0 := by rw [hrev]; rfl
    rw [List.head?_reverse, hcl] at h
    rw [← Option.some.inj h]
    exact hcw

theorem reSplitD_startOk :
    ∀ (s pacc dacc : Str) (mode : Bool),
      (∀ pr ∈ (reSplitD pacc dacc mode s).tail,
          pr.1 = [] ∨ ∃ c t, pr.1 = c :: t ∧ c.isWhitespace = false) ∧
      ((∃ c, pacc.getLast? = some c ∧ c.isWhitespace = false) →
        ∀ pr ∈ reSplitD pacc dacc mode s,
          pr.1 = [] ∨ ∃ c t, pr.1 = c :: t ∧ c.isWhitespace = false) := by
  intro s
  induction s with
  | nil =>
    intro pacc dacc mode
    cases mode with
    | true =>
      constructor
      · intro pr hpr
        simp only [reSplitD, if_true, List.tail, List.mem_singleton] at hpr
        subst hpr
        exact Or.inl rfl
      · rintro ⟨c, hcl, hcw⟩ pr hpr
        simp only [reSplitD, if_true, List.mem_cons, List.mem_singleton] at hpr
        rcases hpr with h | h | h
        · subst h
          exact reverse_head_nonws hcl hcw
        · subst h
          exact Or.inl rfl
        · simp at h
    | false =>
      constructor
      · intro pr hpr
        simp [reSplitD] at hpr
      · rintro ⟨c, hcl, hcw⟩ pr hpr
        simp only [reSplitD, Bool.false_eq_true, if_false,
          List.mem_singleton] at hpr
        subst hpr
        exact reverse_head_nonws hcl hcw
  | cons c rest ih =>
    intro pacc dacc mode
    cases mode with
    | true =>
      by_cases hc : c.isWhitespace
      · rw [show reSplitD pacc dacc true (c :: rest)
            = reSplitD pacc (c :: dacc) true rest by simp [reSplitD, hc]]
        exact ih pacc (c :: dacc) true
      · rw [show reSplitD pacc dacc true (c :: rest)
            = (pacc.reverse, dacc.reverse) :: reSplitD [c] [] false rest by
              simp [reSplitD, hc]]
        have hall : ∀ pr ∈ reSplitD [c] [] false rest,
            pr.1 = [] ∨ ∃ c' t, pr.1 = c' :: t ∧ c'.isWhitespace = false :=
          (ih [c] [] false).2 ⟨c, rfl, by simpa using hc⟩
        constructor
        · intro pr hpr
          exact hall pr hpr
        · rintro ⟨e, hel, hew⟩ pr hpr
          rcases List.mem_cons.1 hpr with h | h
          · subst h
            exact reverse_head_nonws hel hew
          · exact hall pr h
    | false =>
      cases pacc with
      | nil =>
        rw [show reSplitD [] dacc false (c :: rest)
            = reSplitD [c] [] false rest by simp [reSplitD]]
        constructor
        · exact (ih [c] [] false).1
        · rintro ⟨e, hel, _⟩
          simp at hel
      | cons p t =>
        by_cases hb : isTerm p = true ∧ c.isWhitespace = true
        · rw [show reSplitD (p :: t) dacc false (c :: rest)
              = reSplitD (p :: t) [c] true rest by simp [reSplitD, hb]]
          exact ih (p :: t) [c] true
        · rw [show reSplitD (p :: t) dacc false (c :: rest)
              = reSplitD (c :: p :: t) [] false rest by simp [reSplitD, hb]]
          constructor
          · exact (ih (c :: p :: t) [] false).1
          · rintro ⟨e, hel, hew⟩
            refine (ih (c :: p :: t) [] false).2 ⟨e, ?_, hew⟩
            rw [getLast?_cons_ne_nil (by simp)]
            exact hel

theorem words_glue :
    ∀ (prs : List (Str × Str)),
      (∀ pr ∈ prs.dropLast, pr.2 ≠ [] ∧ ∀ c ∈ pr.2, c.isWhitespace = true) →
      (∀ pr, prs.getLast? = some pr → ∀ c ∈ pr.2, c.isWhitespace = true) →
      words ((prs.map (fun pr => pr.1 ++ pr.2)).flatten)
        = wordsOf (prs.map Prod.fst) := by
  intro prs
  induction prs with
  | nil => intro _ _; rfl
  | cons pr rest ih =>
    intro hdl hl
    cases rest with
    | nil =>
      have hws : ∀ c ∈ pr.2, c.isWhitespace = true := hl pr rfl
      simp only [List.map_cons, List.map_nil, List.flatten_cons,
        List.flatten_nil, List.append_nil, wordsOf_cons, wordsOf_nil]
      rw [words_append_allws hws]
    | cons pr2 rest2 =>
      obtain ⟨hne, hws⟩ := hdl pr (by
        rw [List.dropLast_cons_of_ne_nil (by simp)]
        exact List.mem_cons_self _ _)
      have hih := ih
        (fun q hq => hdl q (by
          rw [List.dropLast_cons_of_ne_nil (by simp)]
          exact List.mem_cons_of_mem _ hq))
        (fun q hq => hl q (by rw [getLast?_cons_ne_nil (by simp)]; exact hq))
      cases hd : pr.2 with
      | nil => exact absurd hd hne
      | cons c d' =>
        have hc : c.isWhitespace = true := hws c (by rw [hd]; simp)
        have hd' : ∀ e ∈ d', e.isWhitespace = true :=
          fun e he => hws e (by rw [hd]; exact List.mem_cons_of_mem _ he)
        have lhs_eq :
            (List.map (fun pr => pr.1 ++ pr.2) (pr :: pr2 :: rest2)).flatten
              = pr.1 ++ c :: (d'
                  ++ (List.map (fun pr => pr.1 ++ pr.2)
                      (pr2 :: rest2)).flatten) := by
          rw [List.map_cons, List.flatten_cons, hd]
          simp
        rw [lhs_eq, words_append_ws hc, words_prepend_allws hd', hih]
        simp [wordsOf]

theorem reSplit_wordsOf (text : Str) : wordsOf (reSplit text) = words text := by
  have hglue := reSplitD_glue text [] [] false (fun _ => rfl)
  have hdel := reSplitD_delims text [] [] false (by simp)
  rw [reSplit,
    ← words_glue (reSplitD [] [] false text)
      (fun pr hpr => ⟨(hdel.1 pr hpr).1, (hdel.1 pr hpr).2.1⟩)
      (fun pr hpr => by rw [hdel.2 pr hpr]; intro c hc; simp at hc),
    hglue]
  simp

theorem wordsOf_filter_ne (l : List Str) :
    wordsOf (l.filter (· ≠ [])) = wordsOf l := by
  induction l with
  | nil => rfl
  | cons x xs ih =>
    by_cases hx : x = ([] : Str)
    · subst hx
      rw [List.filter_cons_of_neg (by simp), ih, wordsOf_cons]
      rfl
    · rw [List.filter_cons_of_pos (by simpa using hx), wordsOf_cons,
        wordsOf_cons, ih]

theorem split_sentences_wordsOf (text : Str) :
    wordsOf (split_sentences text) = words text := by
  rw [split_sentences, wordsOf_filter_ne, wordsOf_map_strip, reSplit_wordsOf]

theorem split_sentences_mem (text : Str) :
    ∀ s ∈ split_sentences text, s ≠ [] ∧ strip s = s ∧ words s ≠ [] := by
  intro s hs
  rw [split_sentences] at hs
  have h1 := List.of_mem_filter hs
  obtain ⟨p, hp, rfl⟩ := List.mem_map.1 (List.mem_of_mem_filter hs)
  refine ⟨by simpa using h1, strip_idem p, ?_⟩
  rw [words_strip]
  intro hc
  exact (by simpa using h1 : strip p ≠ []) ((strip_eq_nil_iff p).2 hc)

/-- Claim C8 (confirmed).  The Sentence Splitter splits exactly at positions
where a terminal punctuation mark (`.`, `!`, `?`) is immediately followed
by whitespace: (1) the pieces interleaved with their recorded delimiters
reconstruct the text; (2) every delimiter except the trailing empty one is
a non-empty whitespace run whose preceding piece ends in terminal
punctuation; (3) the final delimiter is empty; (4) no piece contains an
internal unsplit boundary (terminal punctuation immediately followed by
whitespace); (5) the consumed whitespace run is maximal — every piece
after the first is empty or starts with a non-whitespace character;
(6) the sentence list is exactly the pieces trimmed with empties
discarded, so (7) every returned sentence is non-empty and trimmed. -/
theorem claim_C8_sentence_splitter (text : Str) :
    (((reSplitD [] [] false text).map (fun pr => pr.1 ++ pr.2)).flatten
        = text) ∧
      (∀ pr ∈ (reSplitD [] [] false text).dropLast,
        pr.2 ≠ [] ∧ (∀ c ∈ pr.2, c.isWhitespace = true) ∧
          ∃ c, pr.1.getLast? = some c ∧ isTerm c = true) ∧
      (∀ pr, (reSplitD [] [] false text).getLast? = some pr → pr.2 = []) ∧
      (∀ pr ∈ reSplitD [] [] false text,
        List.Chain' (fun a b => ¬(isTerm a = true ∧ b.isWhitespace = true))
          pr.1) ∧
      (∀ pr ∈ (reSplitD [] [] false text).tail,
        pr.1 = [] ∨ ∃ c t, pr.1 = c :: t ∧ c.isWhitespace = false) ∧
      (split_sentences text
        = (((reSplitD [] [] false text).map Prod.fst).map strip).filter
            (· ≠ [])) ∧
      (∀ s ∈ split_sentences text, s ≠ [] ∧ strip s = s) := by
  have hdel := reSplitD_delims text [] [] false (by simp)
  refine ⟨?_, hdel.1, hdel.2, ?_, ?_, rfl, ?_⟩
  · have := reSplitD_glue text [] [] false (fun _ => rfl)
    simpa using this
  · exact reSplitD_bndFree text [] [] false List.chain'_nil
  · exact (reSplitD_startOk text [] [] false).1
  · intro s hs
    exact ⟨(split_sentences_mem text s hs).1, (split_sentences_mem text s hs).2.1⟩

/-! ## Overlap-stripping bookkeeping

`chainOk cs ks` states that, for consecutive output chunks, the first
`k` words of each chunk equal the last `k` words of its predecessor —
i.e. the stripped prefixes are genuine duplicated overlap.  `stripJoin`
concatenates the chunks' words after dropping those prefixes. -/

def chainR : Str × Nat → Str × Nat → Prop := fun a b =>
  b.2 ≤ (words a.1).length ∧ b.2 ≤ (words b.1).length ∧
    (words b.1).take b.2 = (words a.1).drop ((words a.1).length - b.2)

def chainOk (cs : List Str) (ks : List Nat) : Prop :=
  List.Chain' chainR (cs.zip ks)

def stripJoin (cs : List Str) (ks : List Nat) : List Str :=
  ((cs.zip ks).map (fun pr => (words pr.1).drop pr.2)).flatten

/-- The current buffer's first `s` words duplicate the tail of the last
finalized chunk. -/
def seedLink (cs : List Str) (cur : List Str) (s : Nat) : Prop :=
  (cs = [] → s = 0) ∧
  s ≤ (wordsOf cur).length ∧
  ∀ c, cs.getLast? = some c →
    s ≤ (words c).length ∧
    (wordsOf cur).take s = (words c).drop ((words c).length - s)

theorem zip_getLast? {α β : Type} :
    ∀ (l1 : List α) (l2 : List β), l1.length = l2.length →
      ∀ x, (l1.zip l2).getLast? = some x →
        l1.getLast? = some x.1 ∧ l2.getLast? = some x.2 := by
  intro l1
  induction l1 with
  | nil => intro l2 _ x hx; simp at hx
  | cons a t ih =>
    intro l2 hlen x hx
    cases l2 with
    | nil => simp at hlen
    | cons b u =>
      cases t with
      | nil =>
        cases u with
        | nil =>
          simp only [List.zip_cons_cons, List.zip_nil_left,
            List.getLast?_singleton] at hx
          rw [← Option.some.inj hx]
          simp
        | cons u0 us => simp at hlen
      | cons t0 ts =>
        cases u with
        | nil => simp at hlen
        | cons u0 us =>
          have hlen' : (t0 :: ts).length = (u0 :: us).length := by
            simpa using hlen
          have hne : ((t0 :: ts).zip (u0 :: us)) ≠ [] := by
            rw [List.zip_cons_cons]; simp
          have hzx : ((t0 :: ts).zip (u0 :: us)).getLast? = some x := by
            rw [List.zip_cons_cons, getLast?_cons_ne_nil hne] at hx
            exact hx
          obtain ⟨h1, h2⟩ := ih (u0 :: us) hlen' x hzx
          constructor
          · rw [getLast?_cons_ne_nil (by simp)]; exact h1
          · rw [getLast?_cons_ne_nil (by simp)]; exact h2

theorem stripJoin_concat {cs : List Str} {ks : List Nat}
    (hlen : cs.length = ks.length) (c : Str) (k : Nat) :
    stripJoin (cs ++ [c]) (ks ++ [k])
      = stripJoin cs ks ++ (words c).drop k := by
  rw [stripJoin, List.zip_append hlen]
  simp [stripJoin]

theorem chainOk_concat {cs : List Str} {ks : List Nat}
    (hlen : cs.length = ks.length) {c : Str} {k : Nat}
    (hok : chainOk cs ks)
    (hlink : ∀ x, (cs.zip ks).getLast? = some x → chainR x (c, k)) :
    chainOk (cs ++ [c]) (ks ++ [k]) := by
  rw [chainOk, List.zip_append hlen, List.chain'_append]
  refine ⟨hok, List.chain'_singleton _, ?_⟩
  intro x hx y hy
  have hyck : (c, k) = y := by simpa using hy
  rw [← hyck]
  exact hlink x hx

theorem wordsOf_ne_nil {cur : List Str} (hcur : cur ≠ [])
    (hel : ∀ e ∈ cur, words e ≠ []) : wordsOf cur ≠ [] := by
  cases cur with
  | nil => exact absurd rfl hcur
  | cons e t =>
    rw [wordsOf_cons]
    intro hc
    exact hel e (by simp) (List.append_eq_nil.1 hc).1

theorem words_get_tail_overlap_ne_nil {t : Str} (ht : words t ≠ [])
    (n : Nat) : words (get_tail_overlap t n) ≠ [] := by
  by_cases hle : (words t).length ≤ n
  · rw [get_tail_overlap_of_le hle]; exact ht
  push_neg at hle
  by_cases hn : n = 0
  · subst hn
    rw [get_tail_overlap_of_zero (by omega),
      words_joinSep_words (fun w hw => hw)]
    exact ht
  · rw [get_tail_overlap_of_gt_pos (by omega) hle,
      words_joinSep_words (fun w hw => List.mem_of_mem_drop hw)]
    intro hc
    have := congrArg List.length hc
    rw [List.length_drop] at this
    simp at this
    omega

/-- The words of a tail overlap are a suffix of the words of the text. -/
theorem words_get_tail_overlap_drop (t : Str) (n : Nat) :
    words (get_tail_overlap t n)
      = (words t).drop
          ((words t).length - (words (get_tail_overlap t n)).length) := by
  obtain ⟨m, hm, hw⟩ := words_get_tail_overlap t n
  rw [hw, List.length_drop]
  have : (words t).length - ((words t).length - m) = m := by omega
  rw [this]

/-- Invariant of the sentence-accumulation loop of
`_split_large_paragraph` (also reused, with a different joiner, by the
paragraph loop): the finalized units carry strip counts `ks` witnessing
that their stripped words concatenate to the words of the processed
input, the buffer's first `s` words duplicate the tail of the last unit,
and the running count tracks the buffer's words. -/
def SplitInv (done : List Str) (st : List Str × List Str × Nat) : Prop :=
  ∃ ks s,
    st.1.length = ks.length ∧
    (∀ k ∈ ks.head?, k = 0) ∧
    chainOk st.1 ks ∧
    seedLink st.1 st.2.1 s ∧
    stripJoin st.1 ks ++ (wordsOf st.2.1).drop s = wordsOf done ∧
    st.2.2 = (wordsOf st.2.1).length ∧
    (∀ c ∈ st.1, words c ≠ []) ∧
    (∀ e ∈ st.2.1, words e ≠ [])

theorem seedLink_extend {cs cur : List Str} {s : Nat} (e : Str)
    (h : seedLink cs cur s) : seedLink cs (cur ++ [e]) s := by
  obtain ⟨h1, h2, h3⟩ := h
  refine ⟨h1, ?_, ?_⟩
  · rw [wordsOf_append, List.length_append]
    omega
  · intro c hc
    obtain ⟨h4, h5⟩ := h3 c hc
    exact ⟨h4, by rw [wordsOf_append, List.take_append_of_le_length h2, h5]⟩

theorem finalize_reseed {cs0 : List Str} {ks : List Nat} {cur : List Str}
    {s : Nat} {cs : Str} (overlap : Nat)
    (hwcs : words cs = wordsOf cur)
    (hcur : cur ≠ [])
    (hlen : cs0.length = ks.length)
    (hhead : ∀ k ∈ ks.head?, k = 0)
    (hchain : chainOk cs0 ks)
    (hseed : seedLink cs0 cur s)
    (helc : ∀ c ∈ cs0, words c ≠ [])
    (hel : ∀ e ∈ cur, words e ≠ []) :
    (cs0 ++ [cs]).length = (ks ++ [s]).length ∧
    (∀ k ∈ (ks ++ [s]).head?, k = 0) ∧
    chainOk (cs0 ++ [cs]) (ks ++ [s]) ∧
    stripJoin (cs0 ++ [cs]) (ks ++ [s])
      = stripJoin cs0 ks ++ (wordsOf cur).drop s ∧
    (∀ c ∈ cs0 ++ [cs], words c ≠ []) ∧
    words (get_tail_overlap cs overlap) ≠ [] ∧
    seedLink (cs0 ++ [cs]) [get_tail_overlap cs overlap]
      (words (get_tail_overlap cs overlap)).length := by
  obtain ⟨hs1, hs2, hs3⟩ := hseed
  have hwcur : wordsOf cur ≠ [] := wordsOf_ne_nil hcur hel
  have hwcs_ne : words cs ≠ [] := by rw [hwcs]; exact hwcur
  refine ⟨by simp [hlen], ?_, ?_, ?_, ?_, ?_, ?_⟩
  · -- head condition
    cases hks : ks with
    | nil =>
      have hcs0 : cs0 = [] := by
        rw [hks] at hlen
        exact List.length_eq_zero.1 (by simpa using hlen)
      intro k hk
      simp only [hks, List.nil_append, List.head?_cons, Option.mem_def,
        Option.some.injEq] at hk
      rw [← hk]
      exact (hs1 hcs0).symm ▸ rfl
    | cons k0 kt =>
      intro k hk
      have hk0 : k0 = k := by simpa using hk
      rw [← hk0]
      exact hhead k0 (by rw [hks]; simp)
  · -- chain
    refine chainOk_concat hlen hchain ?_
    intro x hx
    have hx1 := (zip_getLast? cs0 ks hlen x hx).1
    obtain ⟨h4, h5⟩ := hs3 x.1 hx1
    refine ⟨h4, ?_, ?_⟩
    · rw [hwcs]; exact hs2
    · rw [hwcs, ← h5]
  · rw [← hwcs]
    exact stripJoin_concat hlen cs s
  · intro c hc
    rcases List.mem_append.1 hc with h | h
    · exact helc c h
    · rw [List.mem_singleton.1 h, hwcs]; exact hwcur
  · exact words_get_tail_overlap_ne_nil hwcs_ne overlap
  · refine ⟨by simp, ?_, ?_⟩
    · simp [wordsOf]
    · intro c hc
      rw [List.getLast?_concat] at hc
      rw [← Option.some.inj hc]
      have hdrop := words_get_tail_overlap_drop cs overlap
      constructor
      · conv_lhs => rw [hdrop]
        rw [List.length_drop]
        omega
      · rw [show wordsOf [get_tail_overlap cs overlap]
            = words (get_tail_overlap cs overlap) by simp [wordsOf],
          List.take_length]
        exact hdrop

theorem splitStep_inv (target overlap : Nat) (done : List Str)
    (subs cur : List Str) (cnt : Nat) (sent : Str)
    (hsent : words sent ≠ [])
    (hinv : SplitInv done (subs, cur, cnt)) :
    SplitInv (done ++ [sent])
      (splitStep target overlap (subs, cur, cnt) sent) := by
  obtain ⟨ks, s, hlen, hhead, hchain, hseed, heq, hcnt, helc, hel⟩ := hinv
  dsimp only at hlen hchain hseed heq hcnt helc hel
  by_cases hgt : cnt + (words sent).length > target
  · by_cases hcurnil : cur = []
    · subst hcurnil
      have hc0 : cnt = 0 := by simpa [wordsOf] using hcnt
      have hstep : splitStep target overlap (subs, [], cnt) sent
          = (subs, [sent], cnt + (words sent).length) := by
        simp [splitStep]
      rw [hstep]
      refine ⟨ks, 0, hlen, hhead, hchain, ?_, ?_, ?_, helc, ?_⟩
      · refine ⟨fun _ => rfl, by simp, ?_⟩
        intro c hc
        refine ⟨by simp, ?_⟩
        simp [List.drop_length]
      · have heq' : stripJoin subs ks = wordsOf done := by
          simpa [wordsOf] using heq
        rw [wordsOf_append]
        simp [wordsOf, heq']
      · simp [wordsOf, hc0]
      · intro e he
        rw [List.mem_singleton.1 he]
        exact hsent
    · have hwcs := words_joinSep_space cur
      obtain ⟨hl2, hh2, hc2, hsj2, hne2, hovw, hsl2⟩ :=
        finalize_reseed overlap hwcs hcurnil hlen hhead hchain
          hseed helc hel
      have hovne : get_tail_overlap (joinSep [' '] cur) overlap ≠ [] := by
        intro hnil
        rw [hnil] at hovw
        exact hovw rfl
      have hstep : splitStep target overlap (subs, cur, cnt) sent
          = (subs ++ [joinSep [' '] cur],
             [get_tail_overlap (joinSep [' '] cur) overlap, sent],
             (words (get_tail_overlap (joinSep [' '] cur) overlap)).length
               + (words sent).length) := by
        simp [splitStep, hgt, hcurnil, hovne]
      rw [hstep]
      refine ⟨ks ++ [s],
        (words (get_tail_overlap (joinSep [' '] cur) overlap)).length,
        hl2, hh2, hc2, ?_, ?_, ?_, hne2, ?_⟩
      · have hext := seedLink_extend sent hsl2
        simpa using hext
      · have hdropeq :
            (wordsOf [get_tail_overlap (joinSep [' '] cur) overlap,
                sent]).drop
              (words (get_tail_overlap (joinSep [' '] cur) overlap)).length
            = words sent := by
          rw [show wordsOf [get_tail_overlap (joinSep [' '] cur) overlap, sent]
              = words (get_tail_overlap (joinSep [' '] cur) overlap)
                  ++ words sent by simp [wordsOf]]
          exact List.drop_left _ _
        rw [hsj2, hdropeq, heq, wordsOf_append]
        simp [wordsOf]
      · simp [wordsOf]
      · intro e he
        rcases List.mem_cons.1 he with h | h
        · rw [h]; exact hovw
        · rw [List.mem_singleton.1 h]; exact hsent
  · have hstep : splitStep target overlap (subs, cur, cnt) sent
        = (subs, cur ++ [sent], cnt + (words sent).length) := by
      simp [splitStep, hgt]
    rw [hstep]
    refine ⟨ks, s, hlen, hhead, hchain, seedLink_extend sent hseed,
      ?_, ?_, helc, ?_⟩
    · rw [wordsOf_append,
        show wordsOf [sent] = words sent by simp [wordsOf],
        List.drop_append_of_le_length hseed.2.1,
        ← List.append_assoc, heq, wordsOf_append]
      simp [wordsOf]
    · rw [hcnt, wordsOf_append]
      simp [wordsOf]
    · intro e he
      rcases List.mem_append.1 he with h | h
      · exact hel e h
      · rw [List.mem_singleton.1 h]; exact hsent

theorem SplitInv_init : SplitInv [] ([], [], 0) := by
  refine ⟨[], 0, rfl, by simp, ?_, ⟨fun _ => rfl, by simp, ?_⟩,
    by simp [stripJoin, wordsOf], by simp [wordsOf], by simp, by simp⟩
  · exact List.chain'_nil
  · intro c hc
    simp at hc

theorem foldl_splitStep_inv (target overlap : Nat) :
    ∀ (sents done : List Str) (st : List Str × List Str × Nat),
      (∀ e ∈ sents, words e ≠ []) → SplitInv done st →
      SplitInv (done ++ sents)
        (sents.foldl (splitStep target overlap) st) := by
  intro sents
  induction sents with
  | nil =>
    intro done st _ h
    simpa using h
  | cons x xs ih =>
    intro done st hw h
    obtain ⟨subs, cur, cnt⟩ := st
    have h1 := splitStep_inv target overlap done subs cur cnt x
      (hw x (by simp)) h
    have h2 := ih (done ++ [x]) (splitStep target overlap (subs, cur, cnt) x)
      (fun e he => hw e (List.mem_cons_of_mem _ he)) h1
    simpa using h2

theorem split_large_paragraph_spec (p : Str) (target overlap : Nat) :
    ∃ ks : List Nat,
      (split_large_paragraph p target overlap).length = ks.length ∧
      (∀ k ∈ ks.head?, k = 0) ∧
      chainOk (split_large_paragraph p target overlap) ks ∧
      stripJoin (split_large_paragraph p target overlap) ks = words p ∧
      (∀ c ∈ split_large_paragraph p target overlap, words c ≠ []) := by
  have hinv := foldl_splitStep_inv target overlap (split_sentences p) []
    ([], [], 0) (fun e he => (split_sentences_mem p e he).2.2) SplitInv_init
  rw [List.nil_append] at hinv
  rw [show split_large_paragraph p target overlap
      = (fun st : List Str × List Str × Nat =>
          if st.2.1 ≠ [] then st.1 ++ [joinSep [' '] st.2.1] else st.1)
        ((split_sentences p).foldl (splitStep target overlap) ([], [], 0))
      from rfl]
  generalize (split_sentences p).foldl (splitStep target overlap) ([], [], 0)
    = st at hinv ⊢
  obtain ⟨subs, cur, cnt⟩ := st
  obtain ⟨ks, s, hlen, hhead, hchain, hseed, heq, hcnt, helc, hel⟩ := hinv
  dsimp only at hlen hchain hseed heq hcnt helc hel ⊢
  rw [split_sentences_wordsOf] at heq
  by_cases hcur : cur = []
  · subst hcur
    have heq' : stripJoin subs ks = words p := by simpa [wordsOf] using heq
    simp only [ne_eq, not_true_eq_false, if_false]
    exact ⟨ks, hlen, hhead, hchain, heq', helc⟩
  · have hwcs := words_joinSep_space cur
    obtain ⟨hl2, hh2, hc2, hsj2, hne2, hovw, hsl2⟩ :=
      finalize_reseed overlap hwcs hcur hlen hhead hchain hseed helc hel
    rw [if_pos (show cur ≠ [] from hcur)]
    refine ⟨ks ++ [s], hl2, hh2, hc2, ?_, hne2⟩
    rw [hsj2]
    exact heq

theorem splitStep_cur_ne_nil (target overlap : Nat)
    (st : List Str × List Str × Nat) (sent : Str) :
    (splitStep target overlap st sent).2.1 ≠ [] := by
  simp [splitStep]

theorem split_sentences_ne_nil {p : Str} (hp : words p ≠ []) :
    split_sentences p ≠ [] := by
  intro hc
  rw [← split_sentences_wordsOf p, hc] at hp
  exact hp rfl

theorem split_large_paragraph_ne_nil {p : Str} (hp : words p ≠ [])
    (target overlap : Nat) : split_large_paragraph p target overlap ≠ [] := by
  obtain ⟨init, last, hil⟩ :=
    (List.eq_nil_or_concat (split_sentences p)).resolve_left
      (split_sentences_ne_nil hp)
  rw [show split_large_paragraph p target overlap
      = (fun st : List Str × List Str × Nat =>
          if st.2.1 ≠ [] then st.1 ++ [joinSep [' '] st.2.1] else st.1)
        ((split_sentences p).foldl (splitStep target overlap) ([], [], 0))
      from rfl, hil, List.concat_eq_append, List.foldl_concat]
  have h := splitStep_cur_ne_nil target overlap
    (init.foldl (splitStep target overlap) ([], [], 0)) last
  simp only [ne_eq, h, not_false_eq_true, if_true]
  simp

/-! ## Size bound for sub-chunks (claim C4) -/

/-- Invariant for the size-bound analysis of `_split_large_paragraph`:
every finalized sub-chunk either fits the target or is an overlap seed
followed by a single sentence; the buffer satisfies the same bound. -/
def SplitBnd (p : Str) (target overlap : Nat)
    (st : List Str × List Str × Nat) : Prop :=
  (∀ c ∈ st.1,
    (words c).length ≤ target ∨
      ∃ sent ∈ split_sentences p,
        c = sent ∨ ∃ seed, c = seed ++ ' ' :: sent ∧
          (overlap = 0 ∨ (words seed).length ≤ overlap)) ∧
  st.2.2 = (wordsOf st.2.1).length ∧
  (st.2.2 ≤ target ∨
    ∃ sent ∈ split_sentences p,
      st.2.1 = [sent] ∨ ∃ seed, st.2.1 = [seed, sent] ∧
        (overlap = 0 ∨ (words seed).length ≤ overlap))

theorem joinSep_buf_shape (p : Str) (target overlap : Nat) {cur : List Str}
    {cnt : Nat}
    (hcnt : cnt = (wordsOf cur).length)
    (hbuf : cnt ≤ target ∨
      ∃ sent ∈ split_sentences p,
        cur = [sent] ∨ ∃ seed, cur = [seed, sent] ∧
          (overlap = 0 ∨ (words seed).length ≤ overlap)) :
    (words (joinSep [' '] cur)).length ≤ target ∨
      ∃ sent ∈ split_sentences p,
        joinSep [' '] cur = sent ∨
          ∃ seed, joinSep [' '] cur = seed ++ ' ' :: sent ∧
            (overlap = 0 ∨ (words seed).length ≤ overlap) := by
  rcases hbuf with h | ⟨sent0, hs0, hshape⟩
  · left
    rw [words_joinSep_space, ← hcnt]
    exact h
  · right
    refine ⟨sent0, hs0, ?_⟩
    rcases hshape with h1 | ⟨seed, h2, hb⟩
    · left
      rw [h1]
      rfl
    · right
      exact ⟨seed, by rw [h2]; simp [joinSep], hb⟩

theorem splitStep_bnd (p : Str) (target overlap : Nat) (subs cur : List Str)
    (cnt : Nat) (sent : Str) (hsent : sent ∈ split_sentences p)
    (hinv : SplitBnd p target overlap (subs, cur, cnt)) :
    SplitBnd p target overlap
      (splitStep target overlap (subs, cur, cnt) sent) := by
  obtain ⟨hsubs, hcnt, hbuf⟩ := hinv
  dsimp only at hsubs hcnt hbuf
  by_cases hgt : cnt + (words sent).length > target
  · by_cases hcurnil : cur = []
    · subst hcurnil
      have hstep : splitStep target overlap (subs, [], cnt) sent
          = (subs, [sent], cnt + (words sent).length) := by
        simp [splitStep]
      rw [hstep]
      refine ⟨hsubs, ?_, Or.inr ⟨sent, hsent, Or.inl rfl⟩⟩
      have hc0 : cnt = 0 := by simpa [wordsOf] using hcnt
      simp [wordsOf, hc0]
    · have hPcs := joinSep_buf_shape p target overlap hcnt hbuf
      have hsubs' : ∀ c ∈ subs ++ [joinSep [' '] cur],
          (words c).length ≤ target ∨
            ∃ sent' ∈ split_sentences p,
              c = sent' ∨ ∃ seed, c = seed ++ ' ' :: sent' ∧
                (overlap = 0 ∨ (words seed).length ≤ overlap) := by
        intro c hc
        rcases List.mem_append.1 hc with h | h
        · exact hsubs c h
        · rw [List.mem_singleton.1 h]
          exact hPcs
      by_cases hovnil : get_tail_overlap (joinSep [' '] cur) overlap = []
      · have hstep : splitStep target overlap (subs, cur, cnt) sent
            = (subs ++ [joinSep [' '] cur], [sent],
               0 + (words sent).length) := by
          simp [splitStep, hgt, hcurnil, hovnil]
        rw [hstep]
        exact ⟨hsubs', by simp [wordsOf],
          Or.inr ⟨sent, hsent, Or.inl rfl⟩⟩
      · have hstep : splitStep target overlap (subs, cur, cnt) sent
            = (subs ++ [joinSep [' '] cur],
               [get_tail_overlap (joinSep [' '] cur) overlap, sent],
               (words (get_tail_overlap (joinSep [' '] cur) overlap)).length
                 + (words sent).length) := by
          simp [splitStep, hgt, hcurnil, hovnil]
        rw [hstep]
        refine ⟨hsubs', by simp [wordsOf], Or.inr ⟨sent, hsent, Or.inr
          ⟨get_tail_overlap (joinSep [' '] cur) overlap, rfl, ?_⟩⟩⟩
        by_cases ho : overlap = 0
        · exact Or.inl ho
        · exact Or.inr (words_get_tail_overlap_le (by omega))
  · have hstep : splitStep target overlap (subs, cur, cnt) sent
        = (subs, cur ++ [sent], cnt + (words sent).length) := by
      simp [splitStep, hgt]
    rw [hstep]
    refine ⟨hsubs, ?_, Or.inl (by dsimp only; omega)⟩
    rw [hcnt, wordsOf_append, List.length_append]
    simp [wordsOf]

theorem foldl_splitStep_bnd (p : Str) (target overlap : Nat) :
    ∀ (sents : List Str) (st : List Str × List Str × Nat),
      (∀ e ∈ sents, e ∈ split_sentences p) →
      SplitBnd p target overlap st →
      SplitBnd p target overlap
        (sents.foldl (splitStep target overlap) st) := by
  intro sents
  induction sents with
  | nil =>
    intro st _ h
    exact h
  | cons x xs ih =>
    intro st hmem h
    obtain ⟨subs, cur, cnt⟩ := st
    exact ih (splitStep target overlap (subs, cur, cnt) x)
      (fun e he => hmem e (List.mem_cons_of_mem _ he))
      (splitStep_bnd p target overlap subs cur cnt x (hmem x (by simp)) h)

/-- Claim C4 (amended).  For a paragraph exceeding the target, every
sub-chunk produced by the Oversized-Paragraph Splitter either has word
count ≤ `target_words`, or consists of a single sentence of the paragraph
optionally preceded by a space-joined overlap seed (of at most
`overlap_words` words when the overlap budget is positive).  The original
claim's sole exception — a lone sentence exceeding the target — is too
narrow: the overlap seed re-buffered before the triggering sentence also
makes sub-chunks of the form `seed ++ " " ++ sentence` exceed the target
even when every sentence fits it (see the counterexample). -/
theorem claim_C4_amended (p : Str) (target overlap : Nat)
    (hp : target < (words p).length) :
    ∀ c ∈ split_large_paragraph p target overlap,
      (words c).length ≤ target ∨
        ∃ sent ∈ split_sentences p,
          c = sent ∨ ∃ seed, c = seed ++ ' ' :: sent ∧
            (overlap = 0 ∨ (words seed).length ≤ overlap) := by
  have hinv := foldl_splitStep_bnd p target overlap (split_sentences p)
    ([], [], 0) (fun e he => he)
    ⟨by simp, by simp [wordsOf], Or.inl (Nat.zero_le _)⟩
  rw [show split_large_paragraph p target overlap
      = (fun st : List Str × List Str × Nat =>
          if st.2.1 ≠ [] then st.1 ++ [joinSep [' '] st.2.1] else st.1)
        ((split_sentences p).foldl (splitStep target overlap) ([], [], 0))
      from rfl]
  generalize (split_sentences p).foldl (splitStep target overlap) ([], [], 0)
    = st at hinv ⊢
  obtain ⟨subs, cur, cnt⟩ := st
  obtain ⟨hsubs, hcnt, hbuf⟩ := hinv
  dsimp only at hsubs hcnt hbuf ⊢
  by_cases hcur : cur = []
  · subst hcur
    simp only [ne_eq, not_true_eq_false, if_false]
    exact hsubs
  · rw [if_pos (show cur ≠ [] from hcur)]
    intro c hc
    rcases List.mem_append.1 hc with h | h
    · exact hsubs c h
    · rw [List.mem_singleton.1 h]
      exact joinSep_buf_shape p target overlap hcnt hbuf

/-- Witness for C4 (amended) at the counterexample's paragraph: the
oversized sub-chunk `"c d. e f g h."` of
`"a b c d. e f g h. i j k l."` under target 5, overlap 2 is within budget
or is seed-plus-one-sentence. -/
theorem claim_C4_witness :
    (words "c d. e f g h.".data).length ≤ 5 ∨
      ∃ sent ∈ split_sentences "a b c d. e f g h. i j k l.".data,
        "c d. e f g h.".data = sent ∨
          ∃ seed, "c d. e f g h.".data = seed ++ ' ' :: sent ∧
            (2 = 0 ∨ (words seed).length ≤ 2) :=
  claim_C4_amended "a b c d. e f g h. i j k l.".data 5 2 (by decide)
    "c d. e f g h.".data (by decide)

/-! ## The trailing pure-overlap chunk (claim C10) -/

theorem emitSubs_concat_pos (overlap : Nat) :
    ∀ (rest chunks : List Str) (cnt : Nat) (last : Str),
      get_tail_overlap last overlap ≠ [] →
      emitSubs overlap chunks cnt (rest ++ [last])
        = (chunks ++ rest ++ [last], [get_tail_overlap last overlap],
           (words (get_tail_overlap last overlap)).length) := by
  intro rest
  induction rest with
  | nil =>
    intro chunks cnt last hov
    simp [emitSubs, hov]
  | cons x xs ih =>
    intro chunks cnt last hov
    have hstep : emitSubs overlap chunks cnt ((x :: xs) ++ [last])
        = emitSubs overlap (chunks ++ [x]) cnt (xs ++ [last]) := by
      cases xs with
      | nil => rfl
      | cons y t => rfl
    rw [hstep, ih (chunks ++ [x]) cnt last hov]
    simp

theorem chunkStep_oversized (target overlap : Nat)
    (st1 st2cur : List Str) (st3 : Nat) (p : Str)
    (hbig : target < (words p).length) :
    ∃ pre L, L ≠ [] ∧
      chunkStep target overlap (st1, st2cur, st3) p
        = (pre ++ [L], [get_tail_overlap L overlap],
           (words (get_tail_overlap L overlap)).length) := by
  have hw : words p ≠ [] := by
    intro hc
    rw [hc] at hbig
    simp at hbig
  have hsubs_ne := split_large_paragraph_ne_nil hw target overlap
  obtain ⟨ksS, hlS, hhS, hcS, hsjS, hneS⟩ :=
    split_large_paragraph_spec p target overlap
  have hgt : st3 + (words p).length > target := by omega
  by_cases hcur : st2cur = []
  · subst hcur
    obtain ⟨sinit, slast, hdec⟩ :=
      (List.eq_nil_or_concat (split_large_paragraph p target overlap)).resolve_left
        hsubs_ne
    rw [List.concat_eq_append] at hdec
    have hslast : words slast ≠ [] := hneS slast (by rw [hdec]; simp)
    have hslast_ne : slast ≠ [] := by
      intro hc; rw [hc] at hslast; exact hslast rfl
    have hstep : chunkStep target overlap (st1, [], st3) p
        = emitSubs overlap st1 st3 (split_large_paragraph p target overlap) := by
      simp [chunkStep, hgt, hbig]
    refine ⟨st1 ++ sinit, slast, hslast_ne, ?_⟩
    rw [hstep, hdec,
      emitSubs_concat_pos overlap sinit st1 st3 slast
        (get_tail_overlap_ne_nil hslast_ne overlap)]
  · by_cases hov0 : get_tail_overlap (joinSep ['\n', '\n'] st2cur) overlap = []
    · obtain ⟨sinit, slast, hdec⟩ :=
        (List.eq_nil_or_concat
          (split_large_paragraph p target overlap)).resolve_left hsubs_ne
      rw [List.concat_eq_append] at hdec
      have hslast : words slast ≠ [] := hneS slast (by rw [hdec]; simp)
      have hslast_ne : slast ≠ [] := by
        intro hc; rw [hc] at hslast; exact hslast rfl
      have hstep : chunkStep target overlap (st1, st2cur, st3) p
          = emitSubs overlap (st1 ++ [joinSep ['\n', '\n'] st2cur]) 0
              (split_large_paragraph p target overlap) := by
        simp [chunkStep, hgt, hbig, hcur, hov0]
      refine ⟨(st1 ++ [joinSep ['\n', '\n'] st2cur]) ++ sinit, slast,
        hslast_ne, ?_⟩
      rw [hstep, hdec,
        emitSubs_concat_pos overlap sinit _ 0 slast
          (get_tail_overlap_ne_nil hslast_ne overlap)]
    · cases hsubs_eq : split_large_paragraph p target overlap with
      | nil => exact absurd hsubs_eq hsubs_ne
      | cons s0 srest =>
        have hstep : chunkStep target overlap (st1, st2cur, st3) p
            = emitSubs overlap (st1 ++ [joinSep ['\n', '\n'] st2cur])
                (words (get_tail_overlap (joinSep ['\n', '\n'] st2cur)
                  overlap)).length
                ((get_tail_overlap (joinSep ['\n', '\n'] st2cur) overlap
                    ++ ' ' :: s0) :: srest) := by
          simp [chunkStep, hgt, hbig, hcur, hov0, hsubs_eq]
        rcases List.eq_nil_or_concat srest with hre | ⟨rinit, rlast, hre⟩
        · subst hre
          refine ⟨st1 ++ [joinSep ['\n', '\n'] st2cur],
            get_tail_overlap (joinSep ['\n', '\n'] st2cur) overlap
              ++ ' ' :: s0, by simp, ?_⟩
          rw [hstep,
            show (get_tail_overlap (joinSep ['\n', '\n'] st2cur) overlap
                ++ ' ' :: s0) :: ([] : List Str)
              = [] ++ [get_tail_overlap (joinSep ['\n', '\n'] st2cur) overlap
                ++ ' ' :: s0] by simp,
            emitSubs_concat_pos overlap [] _ _ _
              (get_tail_overlap_ne_nil (by simp) overlap)]
          simp
        · rw [List.concat_eq_append] at hre
          have hrlast : words rlast ≠ [] := by
            refine hneS rlast ?_
            rw [hsubs_eq, hre]
            simp
          have hrlast_ne : rlast ≠ [] := by
            intro hc; rw [hc] at hrlast; exact hrlast rfl
          refine ⟨(st1 ++ [joinSep ['\n', '\n'] st2cur])
            ++ ((get_tail_overlap (joinSep ['\n', '\n'] st2cur) overlap
                  ++ ' ' :: s0) :: rinit), rlast, hrlast_ne, ?_⟩
          rw [hstep, hre,
            show (get_tail_overlap (joinSep ['\n', '\n'] st2cur) overlap
                ++ ' ' :: s0) :: (rinit ++ [rlast])
              = ((get_tail_overlap (joinSep ['\n', '\n'] st2cur) overlap
                  ++ ' ' :: s0) :: rinit) ++ [rlast] by simp,
            emitSubs_concat_pos overlap _ _ _ rlast
              (get_tail_overlap_ne_nil hrlast_ne overlap)]

/-- Claim C10 (confirmed).  Whenever the last paragraph of the input is
oversized (word count strictly above the target), the chunk sequence ends
with an extra trailing chunk that is exactly the tail overlap of the
second-to-last chunk: the oversized-paragraph path reseeds the buffer
with the overlap of its last sub-chunk, and the final flush emits that
seed as a chunk of pure duplicated overlap. -/
theorem claim_C10_trailing_overlap (text : Str) (target overlap : Nat)
    (ps : List Str) (p : Str)
    (hps : parasOf text = ps ++ [p])
    (hbig : target < (words p).length) :
    ∃ cs c, chunk_text text target overlap
      = cs ++ [c, get_tail_overlap c overlap] := by
  have htext : text ≠ [] := by
    intro hc
    subst hc
    rw [show parasOf [] = [] from rfl] at hps
    exact List.cons_ne_nil p [] (List.append_eq_nil.1 hps.symm).2
  have hct : chunk_text text target overlap
      = (if ((parasOf text).foldl (chunkStep target overlap)
              ([], [], 0)).2.1 ≠ []
         then ((parasOf text).foldl (chunkStep target overlap) ([], [], 0)).1
           ++ [joinSep ['\n', '\n']
                ((parasOf text).foldl (chunkStep target overlap)
                  ([], [], 0)).2.1]
         else ((parasOf text).foldl (chunkStep target overlap)
            ([], [], 0)).1) := by
    simp only [chunk_text, htext, if_false]
  rw [hps, List.foldl_concat] at hct
  generalize hg : ps.foldl (chunkStep target overlap) ([], [], 0) = st0 at hct
  obtain ⟨c1, c2, c3⟩ := st0
  obtain ⟨pre, L, hLne, hcstep⟩ :=
    chunkStep_oversized target overlap c1 c2 c3 p hbig
  rw [hcstep] at hct
  have hovne : get_tail_overlap L overlap ≠ [] :=
    get_tail_overlap_ne_nil hLne overlap
  refine ⟨pre, L, ?_⟩
  rw [hct, if_pos (by simp : ([get_tail_overlap L overlap] : List Str) ≠ [])]
  simp [joinSep]

/-- Witness for C10 at the single oversized 11-word paragraph with
target 10, overlap 3. -/
theorem claim_C10_witness :
    ∃ cs c,
      chunk_text
          "one two three four five six seven eight nine ten eleven".data
          10 3
        = cs ++ [c, get_tail_overlap c 3] :=
  claim_C10_trailing_overlap
    "one two three four five six seven eight nine ten eleven".data 10 3 []
    "one two three four five six seven eight nine ten eleven".data
    (by decide) (by decide)

/-! ## Assembling the whole-run reconstruction invariant (claims C1 and C6) -/

theorem drop_sub_append {a b : List Str} {k : Nat} (h : k ≤ b.length) :
    (a ++ b).drop ((a ++ b).length - k) = b.drop (b.length - k) := by
  rw [List.length_append,
    show a.length + b.length - k = a.length + (b.length - k) by omega,
    List.drop_append]

theorem stripJoin_append {a b : List Str} {ka kb : List Nat}
    (hlen : a.length = ka.length) :
    stripJoin (a ++ b) (ka ++ kb) = stripJoin a ka ++ stripJoin b kb := by
  rw [stripJoin, List.zip_append hlen]
  simp [stripJoin]

theorem chainOk_append {a b : List Str} {ka kb : List Nat}
    (hlen : a.length = ka.length)
    (hca : chainOk a ka) (hcb : chainOk b kb)
    (hlink : ∀ x, (a.zip ka).getLast? = some x →
      ∀ y, (b.zip kb).head? = some y → chainR x y) :
    chainOk (a ++ b) (ka ++ kb) := by
  rw [chainOk, List.zip_append hlen, List.chain'_append]
  refine ⟨hca, hcb, ?_⟩
  intro x hx y hy
  exact hlink x hx y hy

theorem seedLink_tail (csL : List Str) (L : Str) (overlap : Nat)
    (hlast : csL.getLast? = some L) :
    seedLink csL [get_tail_overlap L overlap]
      (words (get_tail_overlap L overlap)).length := by
  refine ⟨?_, by simp [wordsOf], ?_⟩
  · intro hc
    rw [hc] at hlast
    simp at hlast
  · intro c hc
    rw [hlast] at hc
    rw [← Option.some.inj hc]
    have hdrop := words_get_tail_overlap_drop L overlap
    constructor
    · conv_lhs => rw [hdrop]
      rw [List.length_drop]
      omega
    · rw [show wordsOf [get_tail_overlap L overlap]
          = words (get_tail_overlap L overlap) by simp [wordsOf],
        List.take_length]
      exact hdrop

theorem zip_head? {α β : Type} (a0 : α) (at' : List α) (b0 : β)
    (bt : List β) : ((a0 :: at').zip (b0 :: bt)).head? = some (a0, b0) := rfl

theorem emitSubs_inv (overlap : Nat) (done : List Str)
    (chunksA : List Str) (cntA : Nat) (merged : List Str)
    (ksA ksM : List Nat) (para : Str)
    (hlenA : chunksA.length = ksA.length)
    (hheadA : ∀ k ∈ ksA.head?, k = 0)
    (hchainA : chainOk chunksA ksA)
    (hstripA : stripJoin chunksA ksA = wordsOf done)
    (hneA : ∀ c ∈ chunksA, words c ≠ [])
    (hlenM : merged.length = ksM.length)
    (hchainM : chainOk merged ksM)
    (hstripM : stripJoin merged ksM = words para)
    (hneM : ∀ c ∈ merged, words c ≠ [])
    (hmne : merged ≠ [])
    (hlink : ∀ x, (chunksA.zip ksA).getLast? = some x →
      ∀ y, (merged.zip ksM).head? = some y → chainR x y)
    (hheadM : chunksA = [] → ∀ k ∈ ksM.head?, k = 0) :
    SplitInv (done ++ [para]) (emitSubs overlap chunksA cntA merged) := by
  obtain ⟨minit, L, hdec⟩ :=
    (List.eq_nil_or_concat merged).resolve_left hmne
  rw [List.concat_eq_append] at hdec
  have hLw : words L ≠ [] := hneM L (by rw [hdec]; simp)
  have hLne : L ≠ [] := by
    intro hc; rw [hc] at hLw; exact hLw rfl
  have hov := get_tail_overlap_ne_nil hLne overlap
  have hstep : emitSubs overlap chunksA cntA merged
      = (chunksA ++ minit ++ [L], [get_tail_overlap L overlap],
         (words (get_tail_overlap L overlap)).length) := by
    rw [hdec]
    exact emitSubs_concat_pos overlap minit chunksA cntA L hov
  have hchunks : chunksA ++ minit ++ [L] = chunksA ++ merged := by
    rw [hdec, List.append_assoc]
  rw [hstep]
  refine ⟨ksA ++ ksM, (words (get_tail_overlap L overlap)).length,
    ?_, ?_, ?_, ?_, ?_, ?_, ?_, ?_⟩
  · dsimp only
    rw [hchunks]
    simp [hlenA, hlenM]
  · cases hksA : ksA with
    | nil =>
      have hA0 : chunksA = [] := by
        rw [hksA] at hlenA
        exact List.length_eq_zero.1 (by simpa using hlenA)
      intro k hk
      rw [List.nil_append] at hk
      exact hheadM hA0 k hk
    | cons k0 kt =>
      intro k hk
      have hk0 : k0 = k := by simpa [hksA] using hk
      rw [← hk0]
      exact hheadA k0 (by rw [hksA]; simp)
  · dsimp only
    rw [hchunks]
    exact chainOk_append hlenA hchainA hchainM hlink
  · dsimp only
    rw [hchunks]
    exact seedLink_tail _ L overlap
      (by rw [List.getLast?_append_of_ne_nil _ hmne, hdec,
        List.getLast?_concat])
  · dsimp only
    rw [hchunks, stripJoin_append hlenA, hstripA, hstripM,
      show wordsOf [get_tail_overlap L overlap]
        = words (get_tail_overlap L overlap) by simp [wordsOf],
      List.drop_length, wordsOf_append]
    simp [wordsOf]
  · dsimp only
    simp [wordsOf]
  · dsimp only
    rw [hchunks]
    intro c hc
    rcases List.mem_append.1 hc with h | h
    · exact hneA c h
    · exact hneM c h
  · dsimp only
    intro e he
    rw [List.mem_singleton.1 he]
    exact words_get_tail_overlap_ne_nil hLw overlap

theorem stripJoin_cons (x : Str) (xs : List Str) (k : Nat) (kt : List Nat) :
    stripJoin (x :: xs) (k :: kt) = (words x).drop k ++ stripJoin xs kt := by
  simp [stripJoin]

theorem chunkStep_inv (target overlap : Nat) (done : List Str)
    (chunks cur : List Str) (cnt : Nat) (para : Str)
    (hpara : words para ≠ [])
    (hinv : SplitInv done (chunks, cur, cnt)) :
    SplitInv (done ++ [para])
      (chunkStep target overlap (chunks, cur, cnt) para) := by
  obtain ⟨ks, s, hlen, hhead, hchain, hseed, heq, hcnt, helc, hel⟩ := hinv
  dsimp only at hlen hchain hseed heq hcnt helc hel
  by_cases hgt : cnt + (words para).length > target
  · by_cases hbigp : target < (words para).length
    · -- Scenario B: the paragraph alone exceeds the target.
      obtain ⟨ksS, hlS, hhS, hcS, hsjS, hneS⟩ :=
        split_large_paragraph_spec para target overlap
      have hsubs_ne := split_large_paragraph_ne_nil hpara target overlap
      by_cases hcur : cur = []
      · subst hcur
        have hstep : chunkStep target overlap (chunks, [], cnt) para
            = emitSubs overlap chunks cnt
                (split_large_paragraph para target overlap) := by
          simp [chunkStep, hgt, hbigp]
        rw [hstep]
        have hstripA : stripJoin chunks ks = wordsOf done := by
          simpa [wordsOf] using heq
        refine emitSubs_inv overlap done chunks cnt _ ks ksS para hlen hhead
          hchain hstripA helc hlS hcS hsjS hneS hsubs_ne ?_ ?_
        · intro x hx y hy
          cases hsubs_eq : split_large_paragraph para target overlap with
          | nil => exact absurd hsubs_eq hsubs_ne
          | cons s0 srest =>
            cases hksS_eq : ksS with
            | nil =>
              rw [hsubs_eq, hksS_eq] at hlS
              simp at hlS
            | cons k0 ktail =>
              have hk0 : k0 = 0 := hhS k0 (by rw [hksS_eq]; rfl)
              rw [hsubs_eq, hksS_eq, zip_head?] at hy
              rw [← Option.some.inj hy]
              refine ⟨by rw [hk0]; omega, by rw [hk0]; omega, ?_⟩
              rw [hk0]
              simp [List.drop_length]
        · intro _ k hk
          exact hhS k hk
      · have hwcs := words_joinSep_nn cur
        obtain ⟨hl2, hh2, hc2, hsj2, hne2, hovw, hsl2⟩ :=
          finalize_reseed overlap hwcs hcur hlen hhead hchain hseed helc hel
        have hovne : get_tail_overlap (joinSep ['\n', '\n'] cur) overlap
            ≠ [] := by
          intro hc
          rw [hc] at hovw
          exact hovw rfl
        cases hsubs_eq : split_large_paragraph para target overlap with
        | nil => exact absurd hsubs_eq hsubs_ne
        | cons s0 srest =>
          cases hksS_eq : ksS with
          | nil =>
            rw [hsubs_eq, hksS_eq] at hlS
            simp at hlS
          | cons k0 ktail =>
            have hk0 : k0 = 0 := hhS k0 (by rw [hksS_eq]; rfl)
            rw [hsubs_eq, hksS_eq] at hlS hcS hsjS
            rw [hsubs_eq] at hneS
            have hs0w : words s0 ≠ [] := hneS s0 (by simp)
            have hstep : chunkStep target overlap (chunks, cur, cnt) para
                = emitSubs overlap (chunks ++ [joinSep ['\n', '\n'] cur])
                    (words (get_tail_overlap (joinSep ['\n', '\n'] cur)
                      overlap)).length
                    ((get_tail_overlap (joinSep ['\n', '\n'] cur) overlap
                        ++ ' ' :: s0) :: srest) := by
              simp [chunkStep, hgt, hbigp, hcur, hovne, hsubs_eq]
            rw [hstep]
            have hwm0 : words (get_tail_overlap (joinSep ['\n', '\n'] cur)
                  overlap ++ ' ' :: s0)
                = words (get_tail_overlap (joinSep ['\n', '\n'] cur) overlap)
                    ++ words s0 :=
              words_append_ws (by decide) _ _
            have hstripA : stripJoin (chunks ++ [joinSep ['\n', '\n'] cur])
                (ks ++ [s]) = wordsOf done := by
              rw [hsj2]
              exact heq
            have hdropOv := words_get_tail_overlap_drop
              (joinSep ['\n', '\n'] cur) overlap
            refine emitSubs_inv overlap done
              (chunks ++ [joinSep ['\n', '\n'] cur])
              (words (get_tail_overlap (joinSep ['\n', '\n'] cur)
                overlap)).length
              _ (ks ++ [s])
              ((words (get_tail_overlap (joinSep ['\n', '\n'] cur)
                overlap)).length :: ktail)
              para hl2 hh2 hc2 hstripA hne2 ?_ ?_ ?_ ?_ (by simp) ?_ ?_
            · simpa using hlS
            · -- chainOk on the merged list
              rw [chainOk] at hcS ⊢
              rw [List.zip_cons_cons] at hcS ⊢
              rw [List.chain'_cons'] at hcS ⊢
              obtain ⟨hlink0, hrest⟩ := hcS
              refine ⟨?_, hrest⟩
              intro y hy
              obtain ⟨hy1, hy2, hy3⟩ := hlink0 y hy
              dsimp only at hy1 hy3
              refine ⟨?_, hy2, ?_⟩
              · dsimp only
                rw [hwm0, List.length_append]
                omega
              · dsimp only
                rw [hy3, hwm0]
                exact (drop_sub_append hy1).symm
            · -- stripJoin of the merged list
              rw [stripJoin_cons, hwm0, List.drop_left]
              rw [stripJoin_cons, hk0, List.drop_zero] at hsjS
              exact hsjS
            · -- all merged elements have words
              intro c hc
              rcases List.mem_cons.1 hc with h | h
              · rw [h, hwm0]
                intro hnil
                exact hovw (List.append_eq_nil.1 hnil).1
              · exact hneS c (List.mem_cons_of_mem _ h)
            · -- link from the finalized chunk to the merged head
              intro x hx y hy
              have hx1 := (zip_getLast? _ _ hl2 x hx).1
              rw [List.getLast?_concat] at hx1
              have hxcs : joinSep ['\n', '\n'] cur = x.1 :=
                Option.some.inj hx1
              rw [zip_head?] at hy
              rw [← Option.some.inj hy]
              refine ⟨?_, ?_, ?_⟩
              · dsimp only
                rw [← hxcs]
                conv_lhs => rw [hdropOv]
                rw [List.length_drop]
                omega
              · dsimp only
                rw [hwm0, List.length_append]
                omega
              · dsimp only
                rw [hwm0, List.take_left, ← hxcs]
                exact hdropOv
            · -- head condition when no prior chunks (impossible here)
              intro h
              simp at h
    · -- The paragraph fits a fresh chunk: finalize (if needed) and buffer it.
      by_cases hcur : cur = []
      · subst hcur
        have hc0 : cnt = 0 := by simpa [wordsOf] using hcnt
        have hstep : chunkStep target overlap (chunks, [], cnt) para
            = (chunks, [para], cnt + (words para).length) := by
          simp [chunkStep, hgt, hbigp]
        rw [hstep]
        refine ⟨ks, 0, hlen, hhead, hchain, ?_, ?_, ?_, helc, ?_⟩
        · refine ⟨fun _ => rfl, by simp, ?_⟩
          intro c hc
          refine ⟨by simp, ?_⟩
          simp [List.drop_length]
        · have heq' : stripJoin chunks ks = wordsOf done := by
            simpa [wordsOf] using heq
          rw [wordsOf_append]
          simp [wordsOf, heq']
        · simp [wordsOf, hc0]
        · intro e he
          rw [List.mem_singleton.1 he]
          exact hpara
      · have hwcs := words_joinSep_nn cur
        obtain ⟨hl2, hh2, hc2, hsj2, hne2, hovw, hsl2⟩ :=
          finalize_reseed overlap hwcs hcur hlen hhead hchain hseed helc hel
        have hovne : get_tail_overlap (joinSep ['\n', '\n'] cur) overlap
            ≠ [] := by
          intro hc
          rw [hc] at hovw
          exact hovw rfl
        have hstep : chunkStep target overlap (chunks, cur, cnt) para
            = (chunks ++ [joinSep ['\n', '\n'] cur],
               [get_tail_overlap (joinSep ['\n', '\n'] cur) overlap, para],
               (words (get_tail_overlap (joinSep ['\n', '\n'] cur)
                 overlap)).length + (words para).length) := by
          simp [chunkStep, hgt, hbigp, hcur, hovne]
        rw [hstep]
        refine ⟨ks ++ [s],
          (words (get_tail_overlap (joinSep ['\n', '\n'] cur)
            overlap)).length,
          hl2, hh2, hc2, ?_, ?_, ?_, hne2, ?_⟩
        · have hext := seedLink_extend para hsl2
          simpa using hext
        · have hdropeq :
              (wordsOf [get_tail_overlap (joinSep ['\n', '\n'] cur) overlap,
                  para]).drop
                (words (get_tail_overlap (joinSep ['\n', '\n'] cur)
                  overlap)).length
              = words para := by
            rw [show wordsOf [get_tail_overlap (joinSep ['\n', '\n'] cur)
                  overlap, para]
                = words (get_tail_overlap (joinSep ['\n', '\n'] cur) overlap)
                    ++ words para by simp [wordsOf]]
            exact List.drop_left _ _
          rw [hsj2, hdropeq, heq, wordsOf_append]
          simp [wordsOf]
        · simp [wordsOf]
        · intro e he
          rcases List.mem_cons.1 he with h | h
          · rw [h]; exact hovw
          · rw [List.mem_singleton.1 h]; exact hpara
  · have hstep : chunkStep target overlap (chunks, cur, cnt) para
        = (chunks, cur ++ [para], cnt + (words para).length) := by
      simp [chunkStep, hgt]
    rw [hstep]
    refine ⟨ks, s, hlen, hhead, hchain, seedLink_extend para hseed,
      ?_, ?_, helc, ?_⟩
    · rw [wordsOf_append,
        show wordsOf [para] = words para by simp [wordsOf],
        List.drop_append_of_le_length hseed.2.1,
        ← List.append_assoc, heq, wordsOf_append]
      simp [wordsOf]
    · rw [hcnt, wordsOf_append]
      simp [wordsOf]
    · intro e he
      rcases List.mem_append.1 he with h | h
      · exact hel e h
      · rw [List.mem_singleton.1 h]; exact hpara

theorem chunkStep_state_ne (target overlap : Nat) (st1 st2 : List Str)
    (st3 : Nat) (para : Str) :
    ¬((chunkStep target overlap (st1, st2, st3) para).1 = []
      ∧ (chunkStep target overlap (st1, st2, st3) para).2.1 = []) := by
  by_cases hbig : target < (words para).length
  · obtain ⟨pre, L, hLne, hstep⟩ :=
      chunkStep_oversized target overlap st1 st2 st3 para hbig
    rw [hstep]
    simp
  · have h2 : (chunkStep target overlap (st1, st2, st3) para).2.1 ≠ [] := by
      simp only [chunkStep]
      by_cases hgt : st3 + (words para).length > target
      · rw [if_pos hgt, if_neg hbig]
        simp
      · rw [if_neg hgt]
        simp
    exact fun hc => h2 hc.2

theorem foldl_chunkStep_inv (target overlap : Nat) :
    ∀ (paras done : List Str) (st : List Str × List Str × Nat),
      (∀ e ∈ paras, words e ≠ []) → SplitInv done st →
      SplitInv (done ++ paras)
        (paras.foldl (chunkStep target overlap) st) := by
  intro paras
  induction paras with
  | nil =>
    intro done st _ h
    simpa using h
  | cons x xs ih =>
    intro done st hw h
    obtain ⟨chunks, cur, cnt⟩ := st
    have h1 := chunkStep_inv target overlap done chunks cur cnt x
      (hw x (by simp)) h
    have h2 := ih (done ++ [x]) (chunkStep target overlap (chunks, cur, cnt) x)
      (fun e he => hw e (List.mem_cons_of_mem _ he)) h1
    simpa using h2

theorem parasOf_words_ne (text : Str) :
    ∀ e ∈ parasOf text, words e ≠ [] := by
  intro e he
  have hstr : strip e ≠ [] := by simpa using List.of_mem_filter he
  intro hc
  exact hstr ((strip_eq_nil_iff e).2 hc)

/-- Claim C1 (confirmed, at the level of whitespace-delimited words, since
overlap slices and sentence-level sub-chunks are re-joined with single
spaces and so do not preserve raw whitespace).  For every input there is a
list of per-chunk strip counts `ks` such that: the first chunk is not
stripped; for each later chunk the stripped prefix of `k` words equals the
last `k` words of the previous chunk (the duplicated overlap, so content
is duplicated only at chunk boundaries); and concatenating the chunks'
words after stripping those prefixes yields exactly the words of the
trimmed paragraph sequence, in order — no paragraph or sentence content is
dropped, reordered, or truncated. -/
theorem claim_C1_reconstruction (text : Str) (target overlap : Nat) :
    ∃ ks : List Nat,
      (chunk_text text target overlap).length = ks.length ∧
      (∀ k ∈ ks.head?, k = 0) ∧
      chainOk (chunk_text text target overlap) ks ∧
      stripJoin (chunk_text text target overlap) ks
        = wordsOf ((parasOf text).map strip) ∧
      wordsOf ((parasOf text).map strip) = words text := by
  have hw : wordsOf ((parasOf text).map strip) = words text := by
    rw [wordsOf_map_strip, wordsOf_parasOf]
  by_cases htext : text = []
  · subst htext
    refine ⟨[], by simp [chunk_text], by simp, ?_, ?_, hw⟩
    · exact List.chain'_nil
    · rw [hw]
      rfl
  · have hinv := foldl_chunkStep_inv target overlap (parasOf text) []
      ([], [], 0) (parasOf_words_ne text) SplitInv_init
    rw [List.nil_append] at hinv
    have hct : chunk_text text target overlap
        = (if ((parasOf text).foldl (chunkStep target overlap)
                ([], [], 0)).2.1 ≠ []
           then ((parasOf text).foldl (chunkStep target overlap)
              ([], [], 0)).1
             ++ [joinSep ['\n', '\n']
                  ((parasOf text).foldl (chunkStep target overlap)
                    ([], [], 0)).2.1]
           else ((parasOf text).foldl (chunkStep target overlap)
              ([], [], 0)).1) := by
      simp only [chunk_text, htext, if_false]
    rw [hct, wordsOf_map_strip]
    generalize (parasOf text).foldl (chunkStep target overlap) ([], [], 0)
      = st at hinv ⊢
    obtain ⟨chunksF, curF, cntF⟩ := st
    obtain ⟨ks, s, hlen, hhead, hchain, hseed, heq, hcnt, helc, hel⟩ := hinv
    dsimp only at hlen hchain hseed heq hcnt helc hel ⊢
    by_cases hcur : curF = []
    · subst hcur
      have heq' : stripJoin chunksF ks = wordsOf (parasOf text) := by
        simpa [wordsOf] using heq
      simp only [ne_eq, not_true_eq_false, if_false]
      exact ⟨ks, hlen, hhead, hchain, heq', by rw [wordsOf_parasOf]⟩
    · have hwcs := words_joinSep_nn curF
      obtain ⟨hl2, hh2, hc2, hsj2, hne2, hovw, hsl2⟩ :=
        finalize_reseed overlap hwcs hcur hlen hhead hchain hseed helc hel
      rw [if_pos (show curF ≠ [] from hcur)]
      refine ⟨ks ++ [s], hl2, hh2, hc2, ?_, by rw [wordsOf_parasOf]⟩
      rw [hsj2]
      exact heq

/-- Claim C6 (confirmed).  For every input containing at least one paragraph
that is non-empty after trimming, `chunk_text` returns a non-empty list of
chunks and every chunk is a non-empty string. -/
theorem claim_C6_nonempty (text : Str) (target overlap : Nat)
    (h : ∃ p ∈ splitParagraphs text, strip p ≠ []) :
    chunk_text text target overlap ≠ [] ∧
      ∀ c ∈ chunk_text text target overlap, c ≠ [] := by
  obtain ⟨p, hp, hps⟩ := h
  have htext : text ≠ [] := by
    intro hc
    subst hc
    have hp' : p = [] := by simpa [splitParagraphs] using hp
    subst hp'
    exact hps rfl
  have hpmem : p ∈ parasOf text := List.mem_filter.2 ⟨hp, by simpa using hps⟩
  have hparas_ne : parasOf text ≠ [] := by
    intro hc
    rw [hc] at hpmem
    simp at hpmem
  obtain ⟨pinit, plast, hdec⟩ :=
    (List.eq_nil_or_concat (parasOf text)).resolve_left hparas_ne
  have hstate : ¬(((parasOf text).foldl (chunkStep target overlap)
        ([], [], 0)).1 = []
      ∧ ((parasOf text).foldl (chunkStep target overlap)
        ([], [], 0)).2.1 = []) := by
    simp only [hdec, List.concat_eq_append, List.foldl_concat]
    generalize pinit.foldl (chunkStep target overlap) ([], [], 0) = st0
    obtain ⟨a, b, c⟩ := st0
    exact chunkStep_state_ne target overlap a b c plast
  have hinv := foldl_chunkStep_inv target overlap (parasOf text) []
    ([], [], 0) (parasOf_words_ne text) SplitInv_init
  rw [List.nil_append] at hinv
  have hct : chunk_text text target overlap
      = (if ((parasOf text).foldl (chunkStep target overlap)
              ([], [], 0)).2.1 ≠ []
         then ((parasOf text).foldl (chunkStep target overlap)
            ([], [], 0)).1
           ++ [joinSep ['\n', '\n']
                ((parasOf text).foldl (chunkStep target overlap)
                  ([], [], 0)).2.1]
         else ((parasOf text).foldl (chunkStep target overlap)
            ([], [], 0)).1) := by
    simp only [chunk_text, htext, if_false]
  rw [hct]
  generalize (parasOf text).foldl (chunkStep target overlap) ([], [], 0)
    = st at hinv hstate ⊢
  obtain ⟨chunksF, curF, cntF⟩ := st
  obtain ⟨ks, s, hlen, hhead, hchain, hseed, heq, hcnt, helc, hel⟩ := hinv
  dsimp only at hlen hchain hseed heq hcnt helc hel hstate ⊢
  have hchunk_ne : ∀ c ∈ chunksF, c ≠ [] := by
    intro c hc hnil
    exact helc c hc (by rw [hnil]; rfl)
  by_cases hcur : curF = []
  · subst hcur
    have hcne : chunksF ≠ [] := by
      intro hc
      exact hstate ⟨hc, rfl⟩
    simp only [ne_eq, not_true_eq_false, if_false]
    exact ⟨hcne, hchunk_ne⟩
  · rw [if_pos (show curF ≠ [] from hcur)]
    refine ⟨by simp, ?_⟩
    intro c hc
    rcases List.mem_append.1 hc with h | h
    · exact hchunk_ne c h
    · rw [List.mem_singleton.1 h]
      intro hnil
      have hwj : words (joinSep ['\n', '\n'] curF) = wordsOf curF :=
        words_joinSep_nn curF
      rw [hnil] at hwj
      exact wordsOf_ne_nil hcur hel (by rw [← hwj]; rfl)

/-- Witness for C6 at the two-word text `"a b"`. -/
theorem claim_C6_witness :
    chunk_text "a b".data 5 2 ≠ [] ∧
      ∀ c ∈ chunk_text "a b".data 5 2, c ≠ [] :=
  claim_C6_nonempty "a b".data 5 2 ⟨"a b".data, by decide, by decide⟩

/-- Witness for C8 at the concrete text `"Hi. Bye"`: its pieces glued with
their delimiters reconstruct the text, and the sentence list is the
trimmed non-empty pieces. -/
theorem claim_C8_witness :
    ((reSplitD [] [] false "Hi. Bye".data).map
        (fun pr => pr.1 ++ pr.2)).flatten = "Hi. Bye".data ∧
      split_sentences "Hi. Bye".data
        = (((reSplitD [] [] false "Hi. Bye".data).map Prod.fst).map
            strip).filter (· ≠ []) :=
  ⟨(claim_C8_sentence_splitter "Hi. Bye".data).1,
    (claim_C8_sentence_splitter "Hi. Bye".data).2.2.2.2.2.1⟩

/-- Witness for C1 at the concrete text `"a b c\n\nd e f g h i"` with
target 5 and overlap 2. -/
theorem claim_C1_witness :
    ∃ ks : List Nat,
      (chunk_text "a b c\n\nd e f g h i".data 5 2).length = ks.length ∧
      (∀ k ∈ ks.head?, k = 0) ∧
      chainOk (chunk_text "a b c\n\nd e f g h i".data 5 2) ks ∧
      stripJoin (chunk_text "a b c\n\nd e f g h i".data 5 2) ks
        = wordsOf ((parasOf "a b c\n\nd e f g h i".data).map strip) ∧
      wordsOf ((parasOf "a b c\n\nd e f g h i".data).map strip)
        = words "a b c\n\nd e f g h i".data :=
  claim_C1_reconstruction "a b c\n\nd e f g h i".data 5 2
